import Mathlib

/-!
Verification of the MPFX correctly-rounded re-rounding library.

This file gives a shallow embedding, in Lean 4, of the parts of MPFX that
the verified properties concern: the IEEE-754 double bit codec
(`unpack_float` / `make_float` from `convert.hpp`), the re-rounding kernel
(`round_increment` / `round_finalize` / `round` from `round.hpp`), the
rounding context with overflow handling (`Context::round_overflow`,
`Context::overflow_to_infinity`, `Context::round` from `context.hpp`), the
operation-level flag logic (`ops.hpp`), and the error-free-transformation
engine finalizer (`engine_eft::round_finalize` from `engine_eft.hpp`).

Doubles are represented by their 64-bit patterns as natural numbers below
`2 ^ 64`.  Machine-integer arithmetic on significands is expressed with
`Nat` division, remainder and powers of two: `c & bitmask(k)` becomes
`c % 2 ^ k`, `c & ~bitmask(k)` becomes `c - c % 2 ^ k`, `c >> k` becomes
`c / 2 ^ k`, and `c << k` becomes `c * 2 ^ k`.  Exponents are `Int`, as in
the C++ (`exp_t` is a signed 32-bit integer; no computation here reaches
its bounds).  Status flags are modelled by the set of flags an operation
raises, returned alongside its result; the C++ mutates a process-wide
set-only flag register, so the set of flags raised by one call is exactly
this return value.
-/

namespace Mpfx

-- Parameters of the IEEE 754 double format, `float_params<double>::params`
-- from `params.hpp`.
namespace FP

/-- Precision of a double: 53 significand bits. -/
def P : ℕ := 53

/-- Number of stored mantissa bits. -/
def M : ℕ := 52

/-- Minimum normalized exponent. -/
def EMIN : ℤ := -1022

/-- Maximum normalized exponent. -/
def EMAX : ℤ := 1023

/-- Exponent bias. -/
def BIAS : ℤ := 1023

/-- Unnormalized exponent of zeros and subnormals: `EMIN - (P - 1)`. -/
def EXPMIN : ℤ := -1074

end FP

/-- Rounding modes, `RoundingMode` from `round.hpp`. -/
inductive RM : Type
  | RNE
  | RNA
  | RTP
  | RTN
  | RTZ
  | RAZ
  | RTO
  | RTE
  deriving DecidableEq, Repr

/-- Rounding directions, `RoundingDirection` from `round.hpp`. -/
inductive RoundingDirection : Type
  | TO_ZERO
  | AWAY_ZERO
  | TO_EVEN
  | TO_ODD
  deriving DecidableEq, Repr

/-- Direction of rounding for a mode and a sign, `get_direction` from
`round.hpp` (tie-break direction for the nearest modes). -/
def get_direction (mode : RM) (sign : Bool) : RoundingDirection :=
  match mode with
  | RM.RNE => RoundingDirection.TO_EVEN
  | RM.RNA => RoundingDirection.AWAY_ZERO
  | RM.RTP => if sign then RoundingDirection.TO_ZERO else RoundingDirection.AWAY_ZERO
  | RM.RTN => if sign then RoundingDirection.AWAY_ZERO else RoundingDirection.TO_ZERO
  | RM.RTZ => RoundingDirection.TO_ZERO
  | RM.RAZ => RoundingDirection.AWAY_ZERO
  | RM.RTO => RoundingDirection.TO_ODD
  | RM.RTE => RoundingDirection.TO_EVEN

/-- The set of IEEE-754-style status flags raised by one operation
(`flags.hpp` declares the nine process-wide flags; since the register is
set-only, a call is fully described by the flags it sets). -/
structure Flags : Type where
  invalid : Bool
  div_by_zero : Bool
  overflow : Bool
  tiny_before : Bool
  tiny_after : Bool
  underflow_before : Bool
  underflow_after : Bool
  inexact : Bool
  carry : Bool
  deriving DecidableEq, Repr

/-- No flag raised. -/
def Flags.clear : Flags :=
  ⟨false, false, false, false, false, false, false, false, false⟩

/-- Union of two flag sets (sequential composition of two calls on the
set-only register). -/
def Flags.union (a b : Flags) : Flags :=
  ⟨a.invalid || b.invalid, a.div_by_zero || b.div_by_zero,
   a.overflow || b.overflow, a.tiny_before || b.tiny_before,
   a.tiny_after || b.tiny_after, a.underflow_before || b.underflow_before,
   a.underflow_after || b.underflow_after, a.inexact || b.inexact,
   a.carry || b.carry⟩

/-- Bit width of a natural number below `2 ^ 64`, i.e. `std::bit_width` on
a `uint64_t`: zero maps to zero and otherwise `bit_width c` is the unique
`k` with `2 ^ (k - 1) ≤ c < 2 ^ k`.  Written with explicit structural
descent from 64 so that it evaluates by kernel reduction. -/
def bwAux : ℕ → ℕ → ℕ
  | 0, _ => 0
  | k + 1, c => if 2 ^ k ≤ c then k + 1 else bwAux k c

/-- See `bwAux`: `std::bit_width` for values of a `uint64_t`. -/
def bit_width (c : ℕ) : ℕ := bwAux 64 c

/-- Should rounding increment the kept significand?  Transcribes
`round_increment` from `round.hpp`: `s` is the sign, `c_kept` the current
(already masked) significand, `c_lost` the lost bits, `p_lost` the number
of lost bits, `overshiftp` whether subnormalization discarded every digit,
`rm` the rounding mode.  The C++ reads the parity of the kept last place
as `(c_kept >> p_lost) & 1`, which is `Nat.testBit c_kept p_lost`. -/
def round_increment (s : Bool) (c_kept c_lost : ℕ) (p_lost : ℕ)
    (overshiftp : Bool) (rm : RM) : Bool :=
  match rm with
  | RM.RNE =>
      let halfway := 2 ^ (p_lost - 1)
      if overshiftp || decide (c_lost ≠ halfway) then
        !overshiftp && decide (c_lost > halfway)
      else
        c_kept.testBit p_lost
  | RM.RNA =>
      let halfway := 2 ^ (p_lost - 1)
      if overshiftp || decide (c_lost ≠ halfway) then
        !overshiftp && decide (c_lost > halfway)
      else
        true
  | RM.RTP => !s
  | RM.RTN => s
  | RM.RTZ => false
  | RM.RAZ => true
  | RM.RTO => !(c_kept.testBit p_lost)
  | RM.RTE => c_kept.testBit p_lost

/-- Result of the rounding kernel before encoding: sign, normalized
exponent, significand of exactly `P` bits (or zero), and the flags the
call raises. -/
structure KOut : Type where
  s : Bool
  e : ℤ
  c : ℕ
  fl : Flags
  deriving DecidableEq, Repr

/-- The subnormalization analysis at the top of `round_finalize` from
`round.hpp`: given the target precision `p`, the normalized exponent `e`
and the optional first unrepresentable position `n`, computes
`(emin, tiny_before, overshiftp, p_kept, e2)`.  When `n` is absent `emin`
keeps its default `MAX_E = EMAX + 1 = 1024` and nothing is tiny. -/
def kernelParams (p : ℕ) (e : ℤ) (n : Option ℤ) :
    ℤ × Bool × Bool × ℕ × ℤ :=
  match n with
  | Option.none => (1024, false, false, p, e)
  | Option.some nn =>
      let emin : ℤ := nn + (p : ℤ)
      if e < emin then
        let shift : ℕ := (emin - e).toNat
        let overshiftp : Bool := decide (p < shift)
        (emin, true, overshiftp, if overshiftp then 0 else p - shift,
          if overshiftp then nn else e)
      else
        (emin, false, false, p, e)

/-- The easy tininess-after-rounding test of `round_finalize`: the value is
surely tiny after rounding if it sits at least one binade below `2 ^ emin`,
or if its significand is at most the cutoff
`bitmask(p) << (P - p) = (2 ^ p - 1) * 2 ^ (P - p)`, the significand of the
largest representable value below `2 ^ emin`. -/
def tinyAfterEasy (P p : ℕ) (e emin : ℤ) (c : ℕ) : Bool :=
  decide (e < emin - 1) || decide (c ≤ (2 ^ p - 1) * 2 ^ (P - p))

/-- Body of `round_finalize<P>` from `round.hpp` after the
subnormalization analysis (see `kernelParams`), with all flag updates
enabled: split into kept and lost bits, the exact branch, the inexact
branch with its tininess-after determination, increment and carry.  The
hard tininess case does a dry-run `round_increment` with the split one
digit lower and a dummy kept significand `1 << (p_lost - 1)` whose bit
`p_lost - 1` is set (the "odd" state).  The carry flag is gated on
`e > emin` after the exponent bump. -/
def kernelFinish (P : ℕ) (s : Bool) (c : ℕ) (p : ℕ) (e : ℤ) (rm : RM)
    (emin : ℤ) (tinyb overshiftp : Bool) (p_kept : ℕ) (e2 : ℤ) : KOut :=
  let p_lost := if p_kept < P then P - p_kept else 0
  let c_lost := c % 2 ^ p_lost
  let c_kept := c - c_lost
  if c_lost = 0 then
    ⟨s, e2, c_kept,
      { Flags.clear with tiny_before := tinyb, tiny_after := tinyb }⟩
  else
    let tiny_after :=
      if tinyb then
        if tinyAfterEasy P p e emin c then true
        else
          !(round_increment s (2 ^ (p_lost - 1)) (c_lost % 2 ^ (p_lost - 1))
            (p_lost - 1) false rm)
      else false
    if round_increment s c_kept c_lost p_lost overshiftp rm then
      let c2 := c_kept + 2 ^ p_lost
      if c2 ≥ 2 ^ P then
        ⟨s, e2 + 1, c2 / 2,
          ⟨false, false, false, tinyb, tiny_after, tinyb, tiny_after, true,
            decide (e2 + 1 > emin)⟩⟩
      else
        ⟨s, e2, c2,
          ⟨false, false, false, tinyb, tiny_after, tinyb, tiny_after, true,
            false⟩⟩
    else
      ⟨s, e2, c_kept,
        ⟨false, false, false, tinyb, tiny_after, tinyb, tiny_after, true,
          false⟩⟩

/-- Core of `round_finalize<P>` from `round.hpp` (the generic re-rounding
kernel), with all flag updates enabled (`FlagMask = ALL_FLAGS`), returning
the sign, exponent and `P`-bit significand that the C++ then hands to
`encode<P>`, together with the flags raised: the zero fast path, then the
subnormalization analysis (`kernelParams`), then the split, rounding
decision and carry handling (`kernelFinish`).  `emin` defaults to
`MAX_E = 1024` when `n` is absent. -/
def round_finalize_core (P : ℕ) (s : Bool) (e : ℤ) (c : ℕ) (p : ℕ)
    (n : Option ℤ) (rm : RM) : KOut :=
  if c = 0 then
    ⟨s, e, 0, { Flags.clear with tiny_before := true, tiny_after := true }⟩
  else
    let kp := kernelParams p e n
    kernelFinish P s c p e rm kp.1 kp.2.1 kp.2.2.1 kp.2.2.2.1 kp.2.2.2.2

/-- Bit pattern built from a sign, biased exponent field and mantissa
field: `(s << 63) | (ebits << 52) | mbits` with `ebits < 2 ^ 11` and
`mbits < 2 ^ 52` (the fields never overlap in our uses, so `|` is `+`). -/
def pattern (s : Bool) (ebits mbits : ℕ) : ℕ :=
  (if s then 2 ^ 63 else 0) + ebits * 2 ^ 52 + mbits

/-- Encoder `encode<P>` from `round.hpp`: renormalizes a `P`-bit
significand to 53 bits, then packs sign, exponent and mantissa into the
bit pattern of a double.  Callers guarantee that the shifts drop no set
bit. -/
def encode (P : ℕ) (s : Bool) (e : ℤ) (c : ℕ) : ℕ :=
  let c53 := if 53 < P then c / 2 ^ (P - 53) else c * 2 ^ (53 - P)
  if c53 = 0 then
    pattern s 0 0
  else if e < FP.EMIN then
    pattern s 0 (c53 / 2 ^ (FP.EMIN - e).toNat)
  else
    pattern s (e + FP.BIAS).toNat (c53 % 2 ^ 52)

/-- Sign bit of a double bit pattern. -/
def sgn (x : ℕ) : Bool := decide (x / 2 ^ 63 % 2 = 1)

/-- Biased exponent field of a double bit pattern. -/
def ebitsOf (x : ℕ) : ℕ := x / 2 ^ 52 % 2 ^ 11

/-- Mantissa field of a double bit pattern. -/
def mbitsOf (x : ℕ) : ℕ := x % 2 ^ 52

/-- The pattern is a finite double (`std::isfinite`). -/
def finiteB (x : ℕ) : Bool := decide (ebitsOf x ≠ 2047)

/-- The pattern is a NaN (`std::isnan`). -/
def isNanB (x : ℕ) : Bool := decide (ebitsOf x = 2047) && decide (mbitsOf x ≠ 0)

/-- The pattern is an infinity (`std::isinf`). -/
def isInfB (x : ℕ) : Bool := decide (ebitsOf x = 2047) && decide (mbitsOf x = 0)

/-- The pattern compares equal to `0.0` (true of both signed zeros). -/
def isZeroB (x : ℕ) : Bool := decide (ebitsOf x = 0) && decide (mbitsOf x = 0)

/-- Unpacks a finite double into `(s, exp, c)` with value
`(-1)^s * c * 2 ^ exp`; transcribes `unpack_float<double>` from
`convert.hpp`.  Zeros and subnormals give `exp = EXPMIN`; normals
materialize the implicit leading one. -/
def unpack_float (x : ℕ) : Bool × ℤ × ℕ :=
  let s := sgn x
  let ebits := ebitsOf x
  let mbits := mbitsOf x
  if ebits = 0 then
    (s, FP.EXPMIN, mbits)
  else
    ((s, (ebits : ℤ) - FP.BIAS - (FP.M : ℤ), 2 ^ 52 + mbits))

/-- Reconstructs a double from `(-1)^s * c * 2 ^ exp`; transcribes
`make_float<double>` from `convert.hpp`.  The significand is renormalized
to 53 bits using its bit width; callers guarantee no set bit is dropped
(debug-asserted in the C++). -/
def make_float (s : Bool) (exp : ℤ) (c : ℕ) : ℕ :=
  if c = 0 then
    pattern s 0 0
  else
    let p := bit_width c
    let e : ℤ := exp + ((p : ℤ) - 1)
    let shift : ℤ := (FP.P : ℤ) - (p : ℤ)
    let c2 := if 0 < shift then c * 2 ^ shift.toNat else c / 2 ^ (-shift).toNat
    if e < FP.EMIN then
      pattern s 0 (c2 / 2 ^ (FP.EMIN - e).toNat)
    else
      pattern s (e + FP.BIAS).toNat (c2 % 2 ^ 52)

/-- Decodes a finite double pattern into the kernel's fully normalized
form `(s, e, c)` with `c = 0` or `2 ^ 52 ≤ c < 2 ^ 53` and `e` the
normalized exponent, as done at the top of `round(double, ...)` from
`round.hpp`: `unpack_float` followed by a left-normalization of
subnormal significands. -/
def decodeNorm (x : ℕ) : Bool × ℤ × ℕ :=
  let u := unpack_float x
  let s := u.1
  let exp := u.2.1
  let c := u.2.2
  let xp := bit_width c
  let lz := if xp < FP.P then FP.P - xp else 0
  let c2 := c * 2 ^ lz
  let exp2 := exp - (lz : ℤ)
  (s, exp2 + ((FP.P : ℤ) - 1), c2)

/-- The double entry point `round(double x, p, n, rm)` of the kernel,
returning the kernel triple and the flags raised.  Non-finite inputs pass
through untouched with no flags. -/
def roundDoubleCore (x : ℕ) (p : ℕ) (n : Option ℤ) (rm : RM) : KOut :=
  if finiteB x then
    let d := decodeNorm x
    round_finalize_core FP.P d.1 d.2.1 d.2.2 p n rm
  else
    ⟨sgn x, 0, 0, Flags.clear⟩

/-- The double entry point of the kernel with the result encoded back to a
double bit pattern, i.e. `round(double, ...)` from `round.hpp` proper. -/
def roundDouble (x : ℕ) (p : ℕ) (n : Option ℤ) (rm : RM) : ℕ × Flags :=
  if finiteB x then
    let k := roundDoubleCore x p n rm
    (encode FP.P k.s k.e k.c, k.fl)
  else
    (x, Flags.clear)

/-- Magnitude of a finite double pattern as an exact natural number scaled
by `2 ^ 1074` (every finite double is an integer multiple of `2 ^ (-1074)`,
so magnitude comparisons of finite doubles are comparisons of these
numbers). -/
def val1074 (x : ℕ) : ℕ :=
  let u := unpack_float x
  u.2.2 * 2 ^ (u.2.1 + 1074).toNat

/-- Magnitude bits of a pattern (clears the sign bit, as `std::abs`). -/
def magBits (x : ℕ) : ℕ := x % 2 ^ 63

/-- The value `copysign(m, x)`: magnitude of `m` with the sign of `x`. -/
def copysignTo (m x : ℕ) : ℕ :=
  (if sgn x then 2 ^ 63 else 0) + magBits m

/-- Bit pattern of the infinity with the sign of `x`
(`std::copysign(POS_INF, x)`). -/
def infWithSign (x : ℕ) : ℕ := (if sgn x then 2 ^ 63 else 0) + 2047 * 2 ^ 52

/-- A rounding context, the data of `Context` from `context.hpp`:
precision, optional first unrepresented digit, optional largest
representable magnitude (a finite non-negative double pattern), rounding
mode, and the recorded parity of `maxval` at significand position
`p - 1`. -/
structure Context : Type where
  p : ℕ
  n : Option ℤ
  maxval : Option ℕ
  rm : RM
  maxval_odd : Bool

/-- Does overflow round to infinity?  Transcribes
`Context::overflow_to_infinity` from `context.hpp`: the rounding direction
for this sign decides. -/
def overflow_to_infinity (rm : RM) (s : Bool) (maxval_odd : Bool) : Bool :=
  match get_direction rm s with
  | RoundingDirection.TO_ZERO => false
  | RoundingDirection.AWAY_ZERO => true
  | RoundingDirection.TO_EVEN => maxval_odd
  | RoundingDirection.TO_ODD => !maxval_odd

/-- Overflow handling after the kernel, `Context::round_overflow` from
`context.hpp` with all flags enabled: absent `maxval` or non-finite `x`
pass through; `|x| > maxval` raises overflow and inexact and saturates to
the signed infinity or the signed `maxval` as the direction dictates. -/
def round_overflow (ctx : Context) (x : ℕ) : ℕ × Flags :=
  match ctx.maxval with
  | Option.none => (x, Flags.clear)
  | Option.some mv =>
      if finiteB x = false then (x, Flags.clear)
      else if val1074 mv < val1074 (magBits x) then
        let r :=
          if overflow_to_infinity ctx.rm (sgn x) ctx.maxval_odd then
            infWithSign x
          else
            copysignTo mv x
        (r, { Flags.clear with overflow := true, inexact := true })
      else (x, Flags.clear)

/-- Rounding through a context, `Context::round(double)` from
`context.hpp`: the kernel followed by overflow handling; the flags of the
call are the union of both contributions. -/
def ctxRound (ctx : Context) (x : ℕ) : ℕ × Flags :=
  let k := roundDouble x ctx.p ctx.n ctx.rm
  let o := round_overflow ctx k.1
  (o.1, Flags.union k.2 o.2)

/-- The value `x < 0.0` on double patterns: negative sign, nonzero
magnitude, and not a NaN. -/
def ltZeroB (x : ℕ) : Bool := sgn x && decide (magBits x ≠ 0) && !isNanB x

/-- Operation-level flag logic of `mpfx::add` from `ops.hpp`: the engine
produces an intermediate, the context rounds it, and `invalid` is raised
exactly when the result is NaN and the operands are infinities of opposite
sign.  The engine is a parameter: the C++ selects it by a compile-time
enum, and the flag logic is identical for every engine. -/
def op_add (eng : ℕ → ℕ → ℕ) (x y : ℕ) (ctx : Context) : ℕ × Flags :=
  let r := ctxRound ctx (eng x y)
  if isNanB r.1 && (isInfB x && isInfB y && decide (sgn x ≠ sgn y)) then
    (r.1, { r.2 with invalid := true })
  else r

/-- Operation-level flag logic of `mpfx::sub` from `ops.hpp`: `invalid`
iff the result is NaN and the operands are infinities of equal sign. -/
def op_sub (eng : ℕ → ℕ → ℕ) (x y : ℕ) (ctx : Context) : ℕ × Flags :=
  let r := ctxRound ctx (eng x y)
  if isNanB r.1 && (isInfB x && isInfB y && decide (sgn x = sgn y)) then
    (r.1, { r.2 with invalid := true })
  else r

/-- Operation-level flag logic of `mpfx::mul` from `ops.hpp`: `invalid`
iff the result is NaN and one operand is a zero, the other an infinity. -/
def op_mul (eng : ℕ → ℕ → ℕ) (x y : ℕ) (ctx : Context) : ℕ × Flags :=
  let r := ctxRound ctx (eng x y)
  if isNanB r.1 && ((isZeroB x && isInfB y) || (isInfB x && isZeroB y)) then
    (r.1, { r.2 with invalid := true })
  else r

/-- Operation-level flag logic of `mpfx::div` from `ops.hpp`: `invalid`
iff the result is NaN and the operands are both zero or both infinite;
`div_by_zero`, on a separate path regardless of the result, iff the
dividend is finite and nonzero and the divisor is a zero. -/
def op_div (eng : ℕ → ℕ → ℕ) (x y : ℕ) (ctx : Context) : ℕ × Flags :=
  let r := ctxRound ctx (eng x y)
  let r2 :=
    if isNanB r.1 && ((isZeroB x && isZeroB y) || (isInfB x && isInfB y)) then
      (r.1, { r.2 with invalid := true })
    else r
  if finiteB x && decide (isZeroB x = false) && isZeroB y then
    (r2.1, { r2.2 with div_by_zero := true })
  else r2

/-- Operation-level flag logic of `mpfx::sqrt` from `ops.hpp`: `invalid`
iff the result is NaN and the input is finite and negative. -/
def op_sqrt (eng : ℕ → ℕ) (x : ℕ) (ctx : Context) : ℕ × Flags :=
  let r := ctxRound ctx (eng x)
  if isNanB r.1 && (ltZeroB x && finiteB x) then
    (r.1, { r.2 with invalid := true })
  else r

/-- Operation-level flag logic of `mpfx::fma` from `ops.hpp`: `invalid`
iff the result is NaN and either the product pairs a zero with an
infinity, or the product is an infinity (one factor infinite, the other
neither NaN nor, by the previous case, zero) and `z` is the infinity of
the opposite sign.  The C++ reads the sign of the native product `x * y`,
which at that point is the exclusive or of the operand signs (IEEE 754
multiplication of an infinity by a nonzero non-NaN value). -/
def op_fma (eng : ℕ → ℕ → ℕ → ℕ) (x y z : ℕ) (ctx : Context) : ℕ × Flags :=
  let r := ctxRound ctx (eng x y z)
  if isNanB r.1 then
    if (isZeroB x && isInfB y) || (isInfB x && isZeroB y) then
      (r.1, { r.2 with invalid := true })
    else if (isInfB x && !isNanB y) || (isInfB y && !isNanB x) then
      let psign := decide (sgn x ≠ sgn y)
      if isInfB z && decide (psign ≠ sgn z) then
        (r.1, { r.2 with invalid := true })
      else r
    else r
  else r

/-- Result pattern with its least significant bit forced to one
(`b |= 1`). -/
def orOne (b : ℕ) : ℕ := if b % 2 = 0 then b + 1 else b

/-- Round-to-odd at 53 bits of an exact value known through its truncated
53-bit significand `c` and a sticky bit: jam the least significant bit
when any remainder was discarded.  This is the intermediate the engines
deliver (a hardware engine reads the sticky bit from the inexact flag of
a round-toward-zero window; the EFT engine derives it from the residual). -/
def jam53 (c : ℕ) (sticky : Bool) : ℕ := if sticky then orOne c else c

/-- Modelled from the spec: the increment decision of the one-step correct
rounding on the exact value, for kept significand `q` and remainder `r` of
`D` discarded bits; nearest modes compare the remainder with half a unit
`2 ^ (D - 1)`, directional modes increment when inexact and directed away
from zero for this sign, and the parity modes consult the parity of the
kept significand. -/
def idealInc (s : Bool) (rm : RM) (q r D : ℕ) : Bool :=
  match rm with
  | RM.RNE =>
      decide (r > 2 ^ (D - 1)) || (decide (r = 2 ^ (D - 1)) && q.testBit 0)
  | RM.RNA => decide (r ≥ 2 ^ (D - 1))
  | RM.RTP => !s && decide (r ≠ 0)
  | RM.RTN => s && decide (r ≠ 0)
  | RM.RTZ => false
  | RM.RAZ => decide (r ≠ 0)
  | RM.RTO => decide (r ≠ 0) && !(q.testBit 0)
  | RM.RTE => decide (r ≠ 0) && q.testBit 0

/-- Modelled from the spec: the one-step correct rounding (the
`reference`) of the exact real result of an operation.  The exact value is
`(-1)^s * (2 * c + sticky) * 2 ^ (e - 53)` up to the sticky convention:
`m = 2 * c + sticky` is the exact magnitude truncated to `W = 54` bits at
normalized exponent `e`, and a set sticky bit stands for a discarded
remainder strictly between zero and one unit of that last place.  The
reference rounding keeps the bits of value weight at least
`2 ^ g` where `g = max (e - p + 1) (n + 1)` (the format keeps `p`
significant digits, all strictly above position `n`), and increments per
`idealInc`.  For `p ≤ W - 2` these decisions coincide with the decisions
on the exact real value.  Returns the rounded magnitude as
`(significand, value exponent)`. -/
def idealRound (s : Bool) (e : ℤ) (m : ℕ) (W : ℕ) (p : ℕ) (n : Option ℤ)
    (rm : RM) : ℕ × ℤ :=
  let g : ℤ :=
    match n with
    | Option.none => e - (p : ℤ) + 1
    | Option.some nn => max (e - (p : ℤ) + 1) (nn + 1)
  let D : ℕ := (((W : ℤ) - 1) + (g - e)).toNat
  let q := m / 2 ^ D
  let r := m % 2 ^ D
  (if idealInc s rm q r D then q + 1 else q, g)

/-- Equality of two dyadic magnitudes `c1 * 2 ^ x1 = c2 * 2 ^ x2`,
expressed over naturals by rescaling both to the smaller exponent. -/
def dyadEq (c1 : ℕ) (x1 : ℤ) (c2 : ℕ) (x2 : ℤ) : Prop :=
  c1 * 2 ^ (x1 - min x1 x2).toNat = c2 * 2 ^ (x2 - min x1 x2).toNat

/-- The round-to-odd finalizer of the error-free-transformation engine,
`engine_eft::round_finalize` from `engine_eft.hpp`, transcribed on bit
patterns: a zero low part returns `high` unchanged; otherwise, when the
sign bits differ the pattern of `high` is adjusted by `+1` for negative
`high` and `-1` for positive `high`, and finally the least significant
bit is jammed to one. -/
def eft_round_finalize (high low : ℕ) : ℕ :=
  if isZeroB low then high
  else
    let sign_high := high / 2 ^ 63 % 2
    let sign_low := low / 2 ^ 63 % 2
    let b :=
      if sign_high ≠ sign_low then
        if sign_high = 1 then high + 1 else high - 1
      else high
    orOne b

/-! ### Basic facts about the bit-width function -/

theorem bwAux_le (k c : ℕ) : bwAux k c ≤ k := by
  induction k with
  | zero => simp [bwAux]
  | succ k ih =>
      simp only [bwAux]
      split
      · exact Nat.le_refl _
      · exact Nat.le_succ_of_le ih

theorem bwAux_zero (k : ℕ) : bwAux k 0 = 0 := by
  induction k with
  | zero => rfl
  | succ k ih =>
      simp only [bwAux]
      have h : 0 < 2 ^ k := pow_pos (by norm_num) k
      have h2 : ¬ 2 ^ k ≤ 0 := by omega
      simp [h2, ih]

theorem lt_two_pow_bwAux (k c : ℕ) (h : c < 2 ^ k) : c < 2 ^ bwAux k c := by
  induction k with
  | zero => simpa [bwAux] using h
  | succ k ih =>
      simp only [bwAux]
      split
      · exact h
      · exact ih (by omega)

theorem two_pow_le_bwAux (k c : ℕ) (h : c ≠ 0) : 2 ^ (bwAux k c - 1) ≤ c := by
  induction k with
  | zero => simpa [bwAux] using Nat.one_le_iff_ne_zero.mpr h
  | succ k ih =>
      simp only [bwAux]
      split
      · simpa
      · exact ih

theorem bit_width_spec (c : ℕ) (h : c < 2 ^ 64) (hc : c ≠ 0) :
    2 ^ (bit_width c - 1) ≤ c ∧ c < 2 ^ bit_width c := by
  exact ⟨two_pow_le_bwAux 64 c hc, lt_two_pow_bwAux 64 c h⟩

theorem bit_width_eq (c k : ℕ) (h1 : 2 ^ k ≤ c) (h2 : c < 2 ^ (k + 1))
    (hk : k < 64) : bit_width c = k + 1 := by
  have hc : c ≠ 0 := by
    have : 0 < 2 ^ k := Nat.pos_pow_of_pos _ (by norm_num)
    omega
  have h64 : c < 2 ^ 64 := lt_of_lt_of_le h2 (Nat.pow_le_pow_right (by norm_num) (by omega))
  have hs := bit_width_spec c h64 hc
  have hb1 : k < bit_width c := by
    by_contra hcon
    push_neg at hcon
    have := Nat.pow_le_pow_right (show 1 ≤ 2 by norm_num) hcon
    omega
  have hb2 : bit_width c ≤ k + 1 := by
    by_contra hcon
    push_neg at hcon
    have hkk : k + 1 ≤ bit_width c - 1 := by omega
    have := Nat.pow_le_pow_right (show 1 ≤ 2 by norm_num) hkk
    omega
  omega

/-! ### Extracting the fields of a bit pattern -/

theorem pattern_lt (s : Bool) (eb mb : ℕ) (he : eb < 2 ^ 11)
    (hm : mb < 2 ^ 52) : pattern s eb mb < 2 ^ 64 := by
  unfold pattern
  cases s <;> simp <;> nlinarith [he, hm]

theorem mbitsOf_pattern (s : Bool) (eb mb : ℕ) (hm : mb < 2 ^ 52) :
    mbitsOf (pattern s eb mb) = mb := by
  unfold pattern mbitsOf
  cases s <;> simp only [ite_true, ite_false, Bool.false_eq_true] <;>
    norm_num <;> omega

theorem ebitsOf_pattern (s : Bool) (eb mb : ℕ) (he : eb < 2 ^ 11)
    (hm : mb < 2 ^ 52) : ebitsOf (pattern s eb mb) = eb := by
  unfold pattern ebitsOf
  norm_num at he hm ⊢
  cases s <;> simp only [ite_true, ite_false, Bool.false_eq_true] <;>
    norm_num <;> omega

theorem sgn_pattern (s : Bool) (eb mb : ℕ) (he : eb < 2 ^ 11)
    (hm : mb < 2 ^ 52) : sgn (pattern s eb mb) = s := by
  unfold pattern sgn
  norm_num at he hm ⊢
  cases s <;> simp only [ite_true, ite_false, Bool.false_eq_true,
    decide_eq_true_eq] <;> norm_num <;> omega

theorem ebitsOf_signMag (s : Bool) (w : ℕ) (hw : w < 2 ^ 63) :
    ebitsOf ((if s then 2 ^ 63 else 0) + w) = ebitsOf w := by
  unfold ebitsOf
  cases s <;> simp only [Bool.false_eq_true, if_true, if_false] <;>
    norm_num <;> omega

theorem mbitsOf_signMag (s : Bool) (w : ℕ) :
    mbitsOf ((if s then 2 ^ 63 else 0) + w) = mbitsOf w := by
  unfold mbitsOf
  cases s <;> simp only [Bool.false_eq_true, if_true, if_false] <;>
    norm_num <;> omega

theorem sgn_signMag (s : Bool) (w : ℕ) (hw : w < 2 ^ 63) :
    sgn ((if s then 2 ^ 63 else 0) + w) = s := by
  unfold sgn
  cases s <;> simp only [Bool.false_eq_true, if_true, if_false,
    decide_eq_true_eq] <;> norm_num <;> omega

theorem magBits_lt (x : ℕ) : magBits x < 2 ^ 63 :=
  Nat.mod_lt _ (by norm_num)

theorem ebitsOf_magBits (x : ℕ) : ebitsOf (magBits x) = ebitsOf x := by
  unfold ebitsOf magBits
  norm_num
  omega

theorem isInfB_infWithSign (x : ℕ) : isInfB (infWithSign x) = true := by
  unfold isInfB infWithSign
  rw [show (2047 : ℕ) * 2 ^ 52 = 2047 * 2 ^ 52 + 0 by omega, ← Nat.add_assoc]
  rw [show (if sgn x then 2 ^ 63 else 0) + 2047 * 2 ^ 52 + 0 =
      pattern (sgn x) 2047 0 by rfl]
  rw [ebitsOf_pattern _ _ _ (by norm_num) (by norm_num),
    mbitsOf_pattern _ _ _ (by norm_num)]
  simp

theorem sgn_infWithSign (x : ℕ) : sgn (infWithSign x) = sgn x := by
  unfold infWithSign
  exact sgn_signMag _ _ (by norm_num)

theorem isInfB_copysignTo (mv x : ℕ) (h : finiteB mv = true) :
    isInfB (copysignTo mv x) = false := by
  unfold finiteB at h
  unfold isInfB copysignTo
  rw [ebitsOf_signMag _ _ (magBits_lt mv), ebitsOf_magBits]
  simp only [decide_eq_true_eq] at h
  simp [h]

theorem sgn_copysignTo (mv x : ℕ) : sgn (copysignTo mv x) = sgn x := by
  unfold copysignTo
  exact sgn_signMag _ _ (magBits_lt mv)

theorem magBits_decomp (x : ℕ) :
    magBits x = ebitsOf x * 2 ^ 52 + mbitsOf x := by
  unfold magBits ebitsOf mbitsOf
  norm_num
  omega

theorem decodeNorm_spec (x : ℕ) (hfin : finiteB x = true) :
    ((decodeNorm x).2.2 = 0 ↔ magBits x = 0) ∧
    ((decodeNorm x).2.2 = 0 ∨
      (2 ^ 52 ≤ (decodeNorm x).2.2 ∧ (decodeNorm x).2.2 < 2 ^ 53)) ∧
    ((decodeNorm x).2.2 ≠ 0 →
      (decodeNorm x).2.1 ≤ 1023 ∧ -1074 ≤ (decodeNorm x).2.1) ∧
    (2 : ℕ) ^ ((FP.EMIN - (decodeNorm x).2.1).toNat) ∣ (decodeNorm x).2.2 := by
  unfold finiteB at hfin
  simp only [decide_eq_true_eq] at hfin
  have heble : ebitsOf x < 2 ^ 11 := Nat.mod_lt _ (by norm_num)
  have hmble : mbitsOf x < 2 ^ 52 := Nat.mod_lt _ (by norm_num)
  have hmag := magBits_decomp x
  simp only [decodeNorm, unpack_float, FP.P, FP.EMIN, FP.EXPMIN, FP.BIAS, FP.M]
  by_cases h0 : ebitsOf x = 0
  · simp only [h0, if_true, ite_true, if_pos]
    by_cases hm0 : mbitsOf x = 0
    · have hwz : bit_width (mbitsOf x) = 0 := by rw [hm0]; exact bwAux_zero 64
      simp only [hwz, hm0, Nat.zero_mul]
      norm_num
      omega
    · have hm64 : mbitsOf x < 2 ^ 64 := lt_trans hmble (by norm_num)
      have hw := bit_width_spec (mbitsOf x) hm64 hm0
      have hwpos : 1 ≤ bit_width (mbitsOf x) := by
        rcases Nat.eq_zero_or_pos (bit_width (mbitsOf x)) with hz | hz
        · rw [hz] at hw
          norm_num at hw
          omega
        · omega
      have hwle : bit_width (mbitsOf x) ≤ 52 := by
        by_contra hcon
        push_neg at hcon
        have h52 : 52 ≤ bit_width (mbitsOf x) - 1 := by omega
        have := Nat.pow_le_pow_right (show 1 ≤ 2 by norm_num) h52
        omega
      have hlz : bit_width (mbitsOf x) < 53 := by omega
      rw [if_pos hlz]
      have hcz : mbitsOf x * 2 ^ (53 - bit_width (mbitsOf x)) ≠ 0 := by
        apply Nat.mul_ne_zero hm0
        positivity
      refine ⟨?_, ?_, ?_, ?_⟩
      · constructor
        · intro hcc
          exact absurd hcc hcz
        · intro hmg
          rw [hmag, h0] at hmg
          omega
      · right
        have hsplit : (2 : ℕ) ^ 52 = 2 ^ (bit_width (mbitsOf x) - 1) *
            2 ^ (53 - bit_width (mbitsOf x)) := by
          rw [← pow_add]
          congr 1
          omega
        have hsplit2 : (2 : ℕ) ^ 53 = 2 ^ (bit_width (mbitsOf x)) *
            2 ^ (53 - bit_width (mbitsOf x)) := by
          rw [← pow_add]
          congr 1
          omega
        constructor
        · rw [hsplit]
          exact Nat.mul_le_mul_right _ hw.1
        · rw [hsplit2]
          exact (Nat.mul_lt_mul_right (by positivity)).mpr hw.2
      · intro hne
        constructor
        · push_cast
          omega
        · push_cast
          omega
      · exact dvd_mul_of_dvd_right (pow_dvd_pow 2 (by push_cast; omega)) _
  · simp only [h0, if_false, ite_false]
    have hbw : bit_width (2 ^ 52 + mbitsOf x) = 53 := by
      apply bit_width_eq _ 52 (by omega) (by omega) (by norm_num)
    have hnlz : ¬ (bit_width (2 ^ 52 + mbitsOf x) < 53) := by omega
    rw [if_neg hnlz]
    have hcz : 2 ^ 52 + mbitsOf x ≠ 0 := by positivity
    have hebp : 1 ≤ ebitsOf x := by omega
    refine ⟨?_, ?_, ?_, ?_⟩
    · constructor
      · intro hcc
        simp only [Nat.mul_zero, pow_zero, Nat.mul_one] at hcc
        omega
      · intro hmg
        rw [hmag] at hmg
        omega
    · right
      norm_num
      omega
    · intro hne
      constructor
      · push_cast
        omega
      · push_cast
        omega
    · norm_num
      have hz : ((-1022 : ℤ) - ((ebitsOf x : ℤ) - 1023)).toNat = 0 := by omega
      rw [hz]
      norm_num

theorem kernelParams_none (p : ℕ) (e : ℤ) :
    kernelParams p e Option.none = (1024, false, false, p, e) := rfl

theorem kernelParams_some_ge (p : ℕ) (e nn : ℤ) (h : ¬ e < nn + (p : ℤ)) :
    kernelParams p e (Option.some nn) = (nn + (p : ℤ), false, false, p, e) := by
  simp [kernelParams, h]

theorem kernelParams_some_tiny (p : ℕ) (e nn : ℤ) (h : e < nn + (p : ℤ))
    (hov : ¬ p < (nn + (p : ℤ) - e).toNat) :
    kernelParams p e (Option.some nn) =
      (nn + (p : ℤ), true, false, p - (nn + (p : ℤ) - e).toNat, e) := by
  simp only [kernelParams, if_pos h]
  simp [hov]

theorem kernelParams_some_over (p : ℕ) (e nn : ℤ) (h : e < nn + (p : ℤ))
    (hov : p < (nn + (p : ℤ) - e).toNat) :
    kernelParams p e (Option.some nn) = (nn + (p : ℤ), true, true, 0, nn) := by
  simp only [kernelParams, if_pos h]
  simp [hov]

/-! ### Claim theorems -/

/-- C3: in the re-rounding kernel's inexact branch, for every sign, kept
significand, lost bits, lost width and overshift state, rounding mode RTE
increments exactly when bit `p_lost` of `c_kept` is one (the kept least
significant bit is odd), and rounding mode RTO increments exactly when
that bit is zero (the kept least significant bit is even). -/
theorem round_increment_rte_rto (s : Bool) (c_kept c_lost p_lost : ℕ)
    (overshiftp : Bool) :
    round_increment s c_kept c_lost p_lost overshiftp RM.RTE
        = c_kept.testBit p_lost ∧
    round_increment s c_kept c_lost p_lost overshiftp RM.RTO
        = !c_kept.testBit p_lost := by
  exact ⟨rfl, rfl⟩

/-- C8: when the kernel's normalized significand is zero it raises exactly
the two tininess flags and returns the signed zero, for every sign,
exponent, precision, rounding mode, and optional position `n` (present or
absent). -/
theorem round_finalize_zero_path (P : ℕ) (s : Bool) (e : ℤ) (p : ℕ)
    (n : Option ℤ) (rm : RM) :
    round_finalize_core P s e 0 p n rm =
      ⟨s, e, 0, { Flags.clear with tiny_before := true, tiny_after := true }⟩ ∧
    encode P s e 0 = pattern s 0 0 := by
  constructor
  · rfl
  · unfold encode
    by_cases h : 53 < P <;> simp [h]

/-- C2: for a context whose `maxval` is present (a finite double), any
rounding mode, and any finite double `x` with `|x| > maxval`, the overflow
step raises exactly the overflow and inexact flags and returns a value of
the sign of `x` which is the infinity precisely when the rounding
direction for that sign is away-from-zero, or to-even with an odd
`maxval`, or to-odd with an even `maxval` (toward-zero never yields the
infinity), and is `±maxval` otherwise; non-finite `x` and `|x| ≤ maxval`
pass through unchanged with no flags. -/
theorem round_overflow_spec (ctx : Context) (mv x : ℕ)
    (hmv : ctx.maxval = Option.some mv) (hfin : finiteB mv = true) :
    (finiteB x = true → val1074 mv < val1074 (magBits x) →
      (round_overflow ctx x).2 =
        { Flags.clear with overflow := true, inexact := true } ∧
      sgn (round_overflow ctx x).1 = sgn x ∧
      (isInfB (round_overflow ctx x).1 = true ↔
        (get_direction ctx.rm (sgn x) = RoundingDirection.AWAY_ZERO ∨
         (get_direction ctx.rm (sgn x) = RoundingDirection.TO_EVEN ∧
            ctx.maxval_odd = true) ∨
         (get_direction ctx.rm (sgn x) = RoundingDirection.TO_ODD ∧
            ctx.maxval_odd = false))) ∧
      (isInfB (round_overflow ctx x).1 = false →
        (round_overflow ctx x).1 = copysignTo mv x)) ∧
    (finiteB x = false → round_overflow ctx x = (x, Flags.clear)) ∧
    (finiteB x = true → ¬ val1074 mv < val1074 (magBits x) →
      round_overflow ctx x = (x, Flags.clear)) := by
  refine ⟨?_, ?_, ?_⟩
  · intro hx hgt
    have hro : round_overflow ctx x =
        (if overflow_to_infinity ctx.rm (sgn x) ctx.maxval_odd then
            infWithSign x
          else copysignTo mv x,
         { Flags.clear with overflow := true, inexact := true }) := by
      unfold round_overflow
      rw [hmv]
      simp [hx, hgt]
    refine ⟨by rw [hro], ?_, ?_, ?_⟩
    · rw [hro]
      by_cases h : overflow_to_infinity ctx.rm (sgn x) ctx.maxval_odd = true
      · simp only [h, if_true]
        exact sgn_infWithSign x
      · simp only [h, if_false, Bool.not_eq_true] at *
        simp only [h, Bool.false_eq_true, if_false]
        exact sgn_copysignTo mv x
    · rw [hro]
      constructor
      · intro hinf
        by_cases h : overflow_to_infinity ctx.rm (sgn x) ctx.maxval_odd = true
        · unfold overflow_to_infinity at h
          rcases hd : get_direction ctx.rm (sgn x) <;> rw [hd] at h <;>
            simp at h
          · exact Or.inl rfl
          · exact Or.inr (Or.inl ⟨rfl, h⟩)
          · exact Or.inr (Or.inr ⟨rfl, by simpa using h⟩)
        · simp only [Bool.not_eq_true] at h
          simp only [h, Bool.false_eq_true, if_false] at hinf
          rw [isInfB_copysignTo mv x hfin] at hinf
          exact absurd hinf (by simp)
      · intro hd
        have h : overflow_to_infinity ctx.rm (sgn x) ctx.maxval_odd = true := by
          unfold overflow_to_infinity
          rcases hd with h1 | ⟨h1, h2⟩ | ⟨h1, h2⟩ <;> rw [h1] <;> simp [h2]
        simp only [h, if_true]
        exact isInfB_infWithSign x
    · intro hninf
      by_cases h : overflow_to_infinity ctx.rm (sgn x) ctx.maxval_odd = true
      · rw [hro] at hninf
        simp only [h, if_true] at hninf
        rw [isInfB_infWithSign x] at hninf
        exact absurd hninf (by simp)
      · rw [hro]
        simp only [Bool.not_eq_true] at h
        simp [h]
  · intro hx
    unfold round_overflow
    rw [hmv]
    simp [hx]
  · intro hx hle
    unfold round_overflow
    rw [hmv]
    simp [hx, hle]

/-- C4: evidence of the divergence in the EFT finalizer for a negative
`high` with a residual of the opposite sign.  With `high = -1.5`
(pattern `2^63 + 1023 * 2^52 + 2^51`) and `low = +2^(-60)` (pattern
`963 * 2^52`, nonzero, positive while `high` is negative), the code adds
one to the raw pattern, producing a value of larger magnitude — one ulp
away from zero — whereas stepping one ulp toward zero and jamming the
least significant bit would give `orOne` of the decremented pattern.
The pair satisfies the claim's premise: `-1.5` is the round-to-nearest
value of the exact sum `-1.5 + 2^(-60)`. -/
theorem eft_round_finalize_negative_high :
    eft_round_finalize (2 ^ 63 + 1023 * 2 ^ 52 + 2 ^ 51) (963 * 2 ^ 52)
      = 2 ^ 63 + 1023 * 2 ^ 52 + 2 ^ 51 + 1 ∧
    sgn (2 ^ 63 + 1023 * 2 ^ 52 + 2 ^ 51) = true ∧
    sgn (963 * 2 ^ 52) = false ∧
    isZeroB (963 * 2 ^ 52) = false ∧
    magBits (2 ^ 63 + 1023 * 2 ^ 52 + 2 ^ 51 + 1)
      > magBits (2 ^ 63 + 1023 * 2 ^ 52 + 2 ^ 51) ∧
    eft_round_finalize (2 ^ 63 + 1023 * 2 ^ 52 + 2 ^ 51) (963 * 2 ^ 52)
      ≠ orOne (2 ^ 63 + 1023 * 2 ^ 52 + 2 ^ 51 - 1) := by
  refine ⟨by decide, by decide, by decide, by decide, by decide, by decide⟩

/-- C6 counterexample: rounding `7.0` (pattern `1025 * 2^52 + 3 * 2^50`)
to two bits with `n` absent under RNE yields `8.0`
(pattern `1026 * 2^52`): the input and the result are nonzero and the
normalized exponent rose from `2` to `3`, so with the position condition
read as vacuously satisfied the claim demands the carry flag; the kernel
leaves it unraised, because with `n` absent it compares the bumped
exponent against the default `emin = 1024`. -/
theorem carry_vacuous_counterexample :
    (roundDouble (1025 * 2 ^ 52 + 3 * 2 ^ 50) 2 Option.none RM.RNE).1
        = 1026 * 2 ^ 52 ∧
    (roundDoubleCore (1025 * 2 ^ 52 + 3 * 2 ^ 50) 2 Option.none RM.RNE).fl.carry
        = false ∧
    magBits (1025 * 2 ^ 52 + 3 * 2 ^ 50) ≠ 0 ∧
    magBits (1026 * 2 ^ 52) ≠ 0 ∧
    (decodeNorm (1026 * 2 ^ 52)).2.1 > (decodeNorm (1025 * 2 ^ 52 + 3 * 2 ^ 50)).2.1 := by
  refine ⟨by decide, by decide, by decide, by decide, by decide⟩

theorem round_finalize_core_op_flags (P : ℕ) (s : Bool) (e : ℤ) (c p : ℕ)
    (n : Option ℤ) (rm : RM) :
    (round_finalize_core P s e c p n rm).fl.invalid = false ∧
    (round_finalize_core P s e c p n rm).fl.div_by_zero = false ∧
    (round_finalize_core P s e c p n rm).fl.overflow = false := by
  refine ⟨?_, ?_, ?_⟩ <;>
    (simp only [round_finalize_core, kernelFinish]
     repeat (first | rfl | split))

theorem round_overflow_op_flags (ctx : Context) (x : ℕ) :
    (round_overflow ctx x).2.invalid = false ∧
    (round_overflow ctx x).2.div_by_zero = false := by
  refine ⟨?_, ?_⟩ <;>
    (simp only [round_overflow]; repeat (first | rfl | split))

theorem roundDoubleCore_op_flags (x p : ℕ) (n : Option ℤ) (rm : RM) :
    (roundDoubleCore x p n rm).fl.invalid = false ∧
    (roundDoubleCore x p n rm).fl.div_by_zero = false ∧
    (roundDoubleCore x p n rm).fl.overflow = false := by
  unfold roundDoubleCore
  split
  · exact round_finalize_core_op_flags _ _ _ _ _ _ _
  · exact ⟨rfl, rfl, rfl⟩

theorem roundDouble_op_flags (x p : ℕ) (n : Option ℤ) (rm : RM) :
    (roundDouble x p n rm).2.invalid = false ∧
    (roundDouble x p n rm).2.div_by_zero = false := by
  unfold roundDouble
  split
  · dsimp only
    exact ⟨(roundDoubleCore_op_flags x p n rm).1,
      (roundDoubleCore_op_flags x p n rm).2.1⟩
  · exact ⟨rfl, rfl⟩

theorem ctxRound_op_flags (ctx : Context) (x : ℕ) :
    (ctxRound ctx x).2.invalid = false ∧
    (ctxRound ctx x).2.div_by_zero = false := by
  have h1 := round_overflow_op_flags ctx (roundDouble x ctx.p ctx.n ctx.rm).1
  have h2 := roundDouble_op_flags x ctx.p ctx.n ctx.rm
  unfold ctxRound
  simp only [Flags.union]
  rw [h1.1, h1.2, h2.1, h2.2]
  exact ⟨rfl, rfl⟩

theorem invalid_mark_spec (r : ℕ × Flags) (b : Bool) (h : r.2.invalid = false) :
    ((if b = true then (r.1, { r.2 with invalid := true }) else r).2.invalid = true
        ↔ b = true) ∧
    (if b = true then (r.1, { r.2 with invalid := true }) else r).1 = r.1 ∧
    (if b = true then (r.1, { r.2 with invalid := true }) else r).2.div_by_zero
        = r.2.div_by_zero := by
  cases b <;> simp [h]


theorem dbz_mark_spec (r : ℕ × Flags) (b : Bool) :
    (if b = true then (r.1, { r.2 with div_by_zero := true }) else r).2.invalid
        = r.2.invalid ∧
    (if b = true then (r.1, { r.2 with div_by_zero := true }) else r).1 = r.1 ∧
    ((if b = true then (r.1, { r.2 with div_by_zero := true }) else r).2.div_by_zero
        = true ↔ (b = true ∨ r.2.div_by_zero = true)) := by
  cases b <;> simp

theorem opflags_add (eng2 : ℕ → ℕ → ℕ) (x y : ℕ) (ctx : Context) :
    ((op_add eng2 x y ctx).2.invalid = true ↔
      (isNanB (op_add eng2 x y ctx).1 = true ∧ isInfB x = true ∧
        isInfB y = true ∧ sgn x ≠ sgn y)) := by
  unfold op_add
  rw [(invalid_mark_spec _ _ ((ctxRound_op_flags ctx (eng2 x y)).1)).2.1]
  rw [(invalid_mark_spec _ _ ((ctxRound_op_flags ctx (eng2 x y)).1)).1]
  simp only [Bool.and_eq_true, decide_eq_true_eq]
  all_goals tauto

theorem opflags_sub (eng2 : ℕ → ℕ → ℕ) (x y : ℕ) (ctx : Context) :
    ((op_sub eng2 x y ctx).2.invalid = true ↔
      (isNanB (op_sub eng2 x y ctx).1 = true ∧ isInfB x = true ∧
        isInfB y = true ∧ sgn x = sgn y)) := by
  unfold op_sub
  rw [(invalid_mark_spec _ _ ((ctxRound_op_flags ctx (eng2 x y)).1)).2.1]
  rw [(invalid_mark_spec _ _ ((ctxRound_op_flags ctx (eng2 x y)).1)).1]
  simp only [Bool.and_eq_true, decide_eq_true_eq]
  all_goals tauto

theorem opflags_mul (eng2 : ℕ → ℕ → ℕ) (x y : ℕ) (ctx : Context) :
    ((op_mul eng2 x y ctx).2.invalid = true ↔
      (isNanB (op_mul eng2 x y ctx).1 = true ∧
        ((isZeroB x = true ∧ isInfB y = true) ∨
         (isInfB x = true ∧ isZeroB y = true)))) := by
  unfold op_mul
  rw [(invalid_mark_spec _ _ ((ctxRound_op_flags ctx (eng2 x y)).1)).2.1]
  rw [(invalid_mark_spec _ _ ((ctxRound_op_flags ctx (eng2 x y)).1)).1]
  simp only [Bool.and_eq_true, Bool.or_eq_true, decide_eq_true_eq]
  all_goals tauto

theorem opflags_div_invalid (eng2 : ℕ → ℕ → ℕ) (x y : ℕ) (ctx : Context) :
    ((op_div eng2 x y ctx).2.invalid = true ↔
      (isNanB (op_div eng2 x y ctx).1 = true ∧
        ((isZeroB x = true ∧ isZeroB y = true) ∨
         (isInfB x = true ∧ isInfB y = true)))) := by
  unfold op_div
  rw [(dbz_mark_spec _ _).1, (dbz_mark_spec _ _).2.1]
  rw [(invalid_mark_spec _ _ ((ctxRound_op_flags ctx (eng2 x y)).1)).2.1]
  rw [(invalid_mark_spec _ _ ((ctxRound_op_flags ctx (eng2 x y)).1)).1]
  simp only [Bool.and_eq_true, Bool.or_eq_true, decide_eq_true_eq]
  all_goals tauto

theorem opflags_div_dbz (eng2 : ℕ → ℕ → ℕ) (x y : ℕ) (ctx : Context) :
    ((op_div eng2 x y ctx).2.div_by_zero = true ↔
      (finiteB x = true ∧ isZeroB x = false ∧ isZeroB y = true)) := by
  unfold op_div
  rw [(dbz_mark_spec _ _).2.2]
  rw [(invalid_mark_spec _ _ ((ctxRound_op_flags ctx (eng2 x y)).1)).2.2]
  rw [(ctxRound_op_flags ctx (eng2 x y)).2]
  simp only [Bool.and_eq_true, decide_eq_true_eq]
  tauto

theorem opflags_sqrt (eng1 : ℕ → ℕ) (x : ℕ) (ctx : Context) :
    ((op_sqrt eng1 x ctx).2.invalid = true ↔
      (isNanB (op_sqrt eng1 x ctx).1 = true ∧ ltZeroB x = true ∧
        finiteB x = true)) := by
  unfold op_sqrt
  rw [(invalid_mark_spec _ _ ((ctxRound_op_flags ctx (eng1 x)).1)).2.1]
  rw [(invalid_mark_spec _ _ ((ctxRound_op_flags ctx (eng1 x)).1)).1]
  simp only [Bool.and_eq_true, decide_eq_true_eq]
  all_goals tauto

theorem opflags_fma (eng3 : ℕ → ℕ → ℕ → ℕ) (x y z : ℕ) (ctx : Context) :
    ((op_fma eng3 x y z ctx).2.invalid = true ↔
      (isNanB (op_fma eng3 x y z ctx).1 = true ∧
        (((isZeroB x = true ∧ isInfB y = true) ∨
          (isInfB x = true ∧ isZeroB y = true)) ∨
         (((isInfB x = true ∧ isNanB y = false) ∨
           (isInfB y = true ∧ isNanB x = false)) ∧
          isInfB z = true ∧ decide (sgn x ≠ sgn y) ≠ sgn z)))) := by
  have hr := (ctxRound_op_flags ctx (eng3 x y z)).1
  unfold op_fma
  by_cases h0 : isNanB (ctxRound ctx (eng3 x y z)).1 = true
  · simp only [h0, if_true]
    by_cases h1 : ((isZeroB x && isInfB y) || (isInfB x && isZeroB y)) = true
    · simp only [h1, if_true]
      simp only [Bool.or_eq_true, Bool.and_eq_true] at h1
      simp only [h0]
      simp
      tauto
    · simp only [Bool.not_eq_true] at h1
      simp only [h1, Bool.false_eq_true, if_false]
      by_cases h2 : ((isInfB x && !isNanB y) || (isInfB y && !isNanB x)) = true
      · simp only [h2, if_true]
        by_cases h3 : (isInfB z && decide (decide (sgn x ≠ sgn y) ≠ sgn z)) = true
        · simp only [h3, if_true]
          simp only [Bool.or_eq_true, Bool.and_eq_true, Bool.not_eq_true',
            decide_eq_true_eq] at h1 h2 h3
          simp only [h0]
          cases hsx : sgn x <;> cases hsy : sgn y <;> cases hsz : sgn z <;>
            simp_all
        · simp only [Bool.not_eq_true] at h3
          simp only [h3, Bool.false_eq_true, if_false, hr]
          simp only [Bool.or_eq_true, Bool.and_eq_true, Bool.not_eq_true',
            Bool.or_eq_false_iff, Bool.and_eq_false_iff,
            decide_eq_true_eq, decide_eq_false_iff_not] at h1 h2 h3
          constructor
          · intro hc
            exact absurd hc (by simp)
          · intro hc
            rcases hc.2 with hc1 | hc2
            · rcases hc1 with ⟨ha, hb⟩ | ⟨ha, hb⟩ <;> simp_all
            · rcases h3 with h3 | h3 <;> simp_all
      · simp only [Bool.not_eq_true] at h2
        simp only [h2, Bool.false_eq_true, if_false, hr]
        simp only [Bool.or_eq_true, Bool.and_eq_true, Bool.not_eq_true',
          Bool.or_eq_false_iff, Bool.and_eq_false_iff,
          decide_eq_true_eq, decide_eq_false_iff_not] at h1 h2
        constructor
        · intro hc
          exact absurd hc (by simp)
        · intro hc
          rcases hc.2 with hc1 | hc2
          · rcases hc1 with ⟨ha, hb⟩ | ⟨ha, hb⟩ <;> simp_all
          · rcases hc2 with ⟨hc2a, hc2b⟩
            rcases hc2a with ⟨ha, hb⟩ | ⟨ha, hb⟩ <;> simp_all
  · simp only [Bool.not_eq_true] at h0
    simp only [h0, Bool.false_eq_true, if_false, hr]
    simp [h0]

/-- C7: the six user-visible operations raise exactly the operation-level
flags of the specification, for every engine (the engine is an arbitrary
function parameter, as the flag logic of `ops.hpp` is identical for every
engine), inputs and context: `add` raises invalid iff the rounded result
is NaN and the operands are infinities of opposite sign; `sub` iff
infinities of equal sign; `mul` iff a zero times an infinity; `div` raises
invalid iff `0/0` or `inf/inf` and, on a separate path regardless of the
result, `div_by_zero` iff the dividend is finite nonzero and the divisor
zero; `sqrt` raises invalid iff the input is finite and negative; `fma`
iff a zero-times-infinity product or an infinite product added to the
infinity of the opposite sign.  In particular, a NaN operand propagating
through an operation never raises invalid. -/
theorem operation_flags_spec (eng2 : ℕ → ℕ → ℕ) (eng1 : ℕ → ℕ)
    (eng3 : ℕ → ℕ → ℕ → ℕ) (x y z : ℕ) (ctx : Context) :
    ((op_add eng2 x y ctx).2.invalid = true ↔
      (isNanB (op_add eng2 x y ctx).1 = true ∧ isInfB x = true ∧
        isInfB y = true ∧ sgn x ≠ sgn y)) ∧
    ((op_sub eng2 x y ctx).2.invalid = true ↔
      (isNanB (op_sub eng2 x y ctx).1 = true ∧ isInfB x = true ∧
        isInfB y = true ∧ sgn x = sgn y)) ∧
    ((op_mul eng2 x y ctx).2.invalid = true ↔
      (isNanB (op_mul eng2 x y ctx).1 = true ∧
        ((isZeroB x = true ∧ isInfB y = true) ∨
         (isInfB x = true ∧ isZeroB y = true)))) ∧
    ((op_div eng2 x y ctx).2.invalid = true ↔
      (isNanB (op_div eng2 x y ctx).1 = true ∧
        ((isZeroB x = true ∧ isZeroB y = true) ∨
         (isInfB x = true ∧ isInfB y = true)))) ∧
    ((op_div eng2 x y ctx).2.div_by_zero = true ↔
      (finiteB x = true ∧ isZeroB x = false ∧ isZeroB y = true)) ∧
    ((op_sqrt eng1 x ctx).2.invalid = true ↔
      (isNanB (op_sqrt eng1 x ctx).1 = true ∧ ltZeroB x = true ∧
        finiteB x = true)) ∧
    ((op_fma eng3 x y z ctx).2.invalid = true ↔
      (isNanB (op_fma eng3 x y z ctx).1 = true ∧
        (((isZeroB x = true ∧ isInfB y = true) ∨
          (isInfB x = true ∧ isZeroB y = true)) ∨
         (((isInfB x = true ∧ isNanB y = false) ∨
           (isInfB y = true ∧ isNanB x = false)) ∧
          isInfB z = true ∧ decide (sgn x ≠ sgn y) ≠ sgn z)))) ∧
    (isNanB x = true →
      (op_add eng2 x y ctx).2.invalid = false ∧
      (op_sub eng2 x y ctx).2.invalid = false ∧
      (op_mul eng2 x y ctx).2.invalid = false ∧
      (op_div eng2 x y ctx).2.invalid = false ∧
      (op_sqrt eng1 x ctx).2.invalid = false ∧
      (op_fma eng3 x y z ctx).2.invalid = false) := by
  have hna : isNanB x = true → isInfB x = false := by
    intro hw
    unfold isNanB at hw
    unfold isInfB
    simp only [Bool.and_eq_true, decide_eq_true_eq] at hw
    simp [hw.2]
  have hnz : isNanB x = true → isZeroB x = false := by
    intro hw
    unfold isNanB at hw
    unfold isZeroB
    simp only [Bool.and_eq_true, decide_eq_true_eq] at hw
    have h2047 : ebitsOf x ≠ 0 := by rw [hw.1]; norm_num
    simp [h2047]
  have hnl : isNanB x = true → ltZeroB x = false := by
    intro hw
    unfold ltZeroB
    simp [hw]
  refine ⟨opflags_add eng2 x y ctx, opflags_sub eng2 x y ctx,
    opflags_mul eng2 x y ctx, opflags_div_invalid eng2 x y ctx,
    opflags_div_dbz eng2 x y ctx, opflags_sqrt eng1 x ctx,
    opflags_fma eng3 x y z ctx, ?_⟩
  intro hx
  refine ⟨?_, ?_, ?_, ?_, ?_, ?_⟩
  · rw [← Bool.not_eq_true, opflags_add]
    rintro ⟨_, hinf, _, _⟩
    rw [hna hx] at hinf
    exact absurd hinf (by simp)
  · rw [← Bool.not_eq_true, opflags_sub]
    rintro ⟨_, hinf, _, _⟩
    rw [hna hx] at hinf
    exact absurd hinf (by simp)
  · rw [← Bool.not_eq_true, opflags_mul]
    rintro ⟨_, ⟨hzx, _⟩ | ⟨hix, _⟩⟩
    · rw [hnz hx] at hzx
      exact absurd hzx (by simp)
    · rw [hna hx] at hix
      exact absurd hix (by simp)
  · rw [← Bool.not_eq_true, opflags_div_invalid]
    rintro ⟨_, ⟨hzx, _⟩ | ⟨hix, _⟩⟩
    · rw [hnz hx] at hzx
      exact absurd hzx (by simp)
    · rw [hna hx] at hix
      exact absurd hix (by simp)
  · rw [← Bool.not_eq_true, opflags_sqrt]
    rintro ⟨_, hlt, _⟩
    rw [hnl hx] at hlt
    exact absurd hlt (by simp)
  · rw [← Bool.not_eq_true, opflags_fma]
    rintro ⟨_, (⟨hzx, _⟩ | ⟨hix, _⟩) | ⟨⟨hix, _⟩ | ⟨_, hnx⟩, _⟩⟩
    · rw [hnz hx] at hzx
      exact absurd hzx (by simp)
    · rw [hna hx] at hix
      exact absurd hix (by simp)
    · rw [hna hx] at hix
      exact absurd hix (by simp)
    · rw [hx] at hnx
      exact absurd hnx (by simp)


set_option maxRecDepth 10000 in
/-- Witness for C2 at a concrete context (`p = 2`, `maxval = 1.0`, RNE,
even `maxval`) and input `2.0`. -/
theorem round_overflow_spec_witness :
    (round_overflow
        ⟨2, Option.none, Option.some (1023 * 2 ^ 52), RM.RNE, false⟩
        (1024 * 2 ^ 52)).2 =
      { Flags.clear with overflow := true, inexact := true } :=
  ((round_overflow_spec
      ⟨2, Option.none, Option.some (1023 * 2 ^ 52), RM.RNE, false⟩
      (1023 * 2 ^ 52) (1024 * 2 ^ 52) rfl (by decide)).1
    (by decide) (by decide)).1

/-- C9: repacking the triple produced by unpacking is the identity on
every finite double, zeros, signed zeros and subnormals included:
`make_float` applied to the `(sign, exponent, significand)` triple
returned by `unpack_float` reproduces the bit pattern exactly.  A finite
double is a pattern with biased exponent field at most 2046. -/
theorem pack_unpack_roundtrip (s : Bool) (eb mb : ℕ) (he : eb ≤ 2046)
    (hm : mb < 2 ^ 52) :
    make_float (unpack_float (pattern s eb mb)).1
      (unpack_float (pattern s eb mb)).2.1
      (unpack_float (pattern s eb mb)).2.2 = pattern s eb mb := by
  have he11 : eb < 2 ^ 11 := by norm_num; omega
  have hsg := sgn_pattern s eb mb he11 hm
  have heb := ebitsOf_pattern s eb mb he11 hm
  have hmb := mbitsOf_pattern s eb mb hm
  unfold unpack_float
  simp only [hsg, heb, hmb]
  by_cases h0 : eb = 0
  · simp only [h0, if_true, ite_true, if_pos]
    by_cases hmb0 : mb = 0
    · simp [make_float, hmb0, h0]
    · simp only [make_float]
      rw [if_neg hmb0]
      have hm64 : mb < 2 ^ 64 := lt_trans hm (by norm_num)
      have hw := bit_width_spec mb hm64 hmb0
      have hwpos : 1 ≤ bit_width mb := by
        rcases Nat.eq_zero_or_pos (bit_width mb) with hz | hz
        · rw [hz] at hw
          norm_num at hw
          omega
        · omega
      have hwle : bit_width mb ≤ 52 := by
        by_contra hcon
        push_neg at hcon
        have h52 : 52 ≤ bit_width mb - 1 := by omega
        have := Nat.pow_le_pow_right (show 1 ≤ 2 by norm_num) h52
        omega
      have hshift : (0 : ℤ) < (FP.P : ℤ) - ((bit_width mb : ℕ) : ℤ) := by
        simp only [FP.P]
        omega
      rw [if_pos hshift]
      have hlt : FP.EXPMIN + (((bit_width mb : ℕ) : ℤ) - 1) < FP.EMIN := by
        simp only [FP.EXPMIN, FP.EMIN]
        omega
      rw [if_pos hlt]
      have hsub : (FP.EMIN - (FP.EXPMIN + (((bit_width mb : ℕ) : ℤ) - 1))).toNat
          = 53 - bit_width mb := by
        simp only [FP.EMIN, FP.EXPMIN]
        omega
      have htn : ((FP.P : ℤ) - ((bit_width mb : ℕ) : ℤ)).toNat = 53 - bit_width mb := by
        simp only [FP.P]
        omega
      rw [hsub, htn]
      rw [Nat.mul_div_cancel _ (pow_pos (by norm_num) _)]
  · rw [if_neg h0]
    simp only [make_float]
    have hc0 : ¬ (2 ^ 52 + mb = 0) := by positivity
    rw [if_neg hc0]
    have hbw : bit_width (2 ^ 52 + mb) = 53 := by
      apply bit_width_eq _ 52 (by omega) (by omega) (by norm_num)
    rw [hbw]
    have hshift : ¬ (0 : ℤ) < (FP.P : ℤ) - ((53 : ℕ) : ℤ) := by
      simp [FP.P]
    rw [if_neg hshift]
    have hebz : 1 ≤ eb := by omega
    have hlt : ¬ ((eb : ℤ) - FP.BIAS - (FP.M : ℤ) + (((53 : ℕ) : ℤ) - 1) < FP.EMIN) := by
      simp only [FP.BIAS, FP.M, FP.EMIN]
      push_cast
      omega
    rw [if_neg hlt]
    have hdiv : (2 ^ 52 + mb) / 2 ^ (-((FP.P : ℤ) - ((53 : ℕ) : ℤ))).toNat
        = 2 ^ 52 + mb := by
      simp [FP.P]
    rw [hdiv]
    have hmod : (2 ^ 52 + mb) % 2 ^ 52 = mb := by
      rw [Nat.add_mod_left, Nat.mod_eq_of_lt hm]
    rw [hmod]
    have hexp : ((eb : ℤ) - FP.BIAS - (FP.M : ℤ) + (((53 : ℕ) : ℤ) - 1) + FP.BIAS).toNat
        = eb := by
      simp only [FP.BIAS, FP.M]
      push_cast
      omega
    rw [hexp]

set_option maxRecDepth 10000 in
/-- Witness for C9 at `x = 1.0` (sign 0, biased exponent 1023, zero
mantissa field). -/
theorem pack_unpack_roundtrip_witness :
    (1023 : ℕ) ≤ 2046 ∧ (0 : ℕ) < 2 ^ 52 ∧
    make_float (unpack_float (pattern false 1023 0)).1
      (unpack_float (pattern false 1023 0)).2.1
      (unpack_float (pattern false 1023 0)).2.2 = pattern false 1023 0 :=
  ⟨by decide, by decide,
    pack_unpack_roundtrip false 1023 0 (by decide) (by decide)⟩

theorem roundDoubleCore_finite (x p : ℕ) (n : Option ℤ) (rm : RM)
    (hfin : finiteB x = true) :
    roundDoubleCore x p n rm =
      round_finalize_core 53 (decodeNorm x).1 (decodeNorm x).2.1
        (decodeNorm x).2.2 p n rm := by
  unfold roundDoubleCore
  rw [if_pos hfin]
  simp [FP.P]

theorem round_finalize_core_ne (P : ℕ) (s : Bool) (e : ℤ) (c : ℕ) (p : ℕ)
    (n : Option ℤ) (rm : RM) (hc : c ≠ 0) :
    round_finalize_core P s e c p n rm =
      kernelFinish P s c p e rm (kernelParams p e n).1 (kernelParams p e n).2.1
        (kernelParams p e n).2.2.1 (kernelParams p e n).2.2.2.1
        (kernelParams p e n).2.2.2.2 := by
  simp [round_finalize_core, hc]

theorem kernelFinish_parts (P : ℕ) (s : Bool) (c p : ℕ) (e : ℤ) (rm : RM)
    (emin : ℤ) (tb ov : Bool) (pk : ℕ) (e2 : ℤ) :
    (kernelFinish P s c p e rm emin tb ov pk e2).fl.carry =
      (decide (c % 2 ^ (if pk < P then P - pk else 0) ≠ 0) &&
       round_increment s (c - c % 2 ^ (if pk < P then P - pk else 0))
         (c % 2 ^ (if pk < P then P - pk else 0))
         (if pk < P then P - pk else 0) ov rm &&
       decide (2 ^ P ≤ c - c % 2 ^ (if pk < P then P - pk else 0) +
         2 ^ (if pk < P then P - pk else 0)) &&
       decide (emin < e2 + 1)) ∧
    (kernelFinish P s c p e rm emin tb ov pk e2).e =
      (if (decide (c % 2 ^ (if pk < P then P - pk else 0) ≠ 0) &&
           round_increment s (c - c % 2 ^ (if pk < P then P - pk else 0))
             (c % 2 ^ (if pk < P then P - pk else 0))
             (if pk < P then P - pk else 0) ov rm &&
           decide (2 ^ P ≤ c - c % 2 ^ (if pk < P then P - pk else 0) +
             2 ^ (if pk < P then P - pk else 0))) = true
       then e2 + 1 else e2) ∧
    (kernelFinish P s c p e rm emin tb ov pk e2).c =
      (if c % 2 ^ (if pk < P then P - pk else 0) = 0 then c
       else if round_increment s (c - c % 2 ^ (if pk < P then P - pk else 0))
           (c % 2 ^ (if pk < P then P - pk else 0))
           (if pk < P then P - pk else 0) ov rm = true then
         (if 2 ^ P ≤ c - c % 2 ^ (if pk < P then P - pk else 0) +
             2 ^ (if pk < P then P - pk else 0) then
           (c - c % 2 ^ (if pk < P then P - pk else 0) +
             2 ^ (if pk < P then P - pk else 0)) / 2
         else c - c % 2 ^ (if pk < P then P - pk else 0) +
           2 ^ (if pk < P then P - pk else 0))
       else c - c % 2 ^ (if pk < P then P - pk else 0)) := by
  have hpl : ∃ pl, (if pk < P then P - pk else 0) = pl := ⟨_, rfl⟩
  obtain ⟨pl, hpl⟩ := hpl
  simp only [kernelFinish, hpl]
  by_cases h1 : c % 2 ^ pl = 0
  · rw [if_pos h1]
    refine ⟨?_, ?_, ?_⟩ <;> simp [h1, Flags.clear]
  · by_cases h2 : round_increment s (c - c % 2 ^ pl) (c % 2 ^ pl) pl ov rm = true
    · by_cases h3 : 2 ^ P ≤ c - c % 2 ^ pl + 2 ^ pl
      · rw [if_neg h1, if_pos h2, if_pos h3]
        refine ⟨?_, ?_, ?_⟩ <;> simp [h1, h2, h3]
      · rw [if_neg h1, if_pos h2, if_neg h3]
        refine ⟨?_, ?_, ?_⟩ <;> simp [h1, h2, h3]
    · rw [if_neg h1, if_neg h2]
      simp only [Bool.not_eq_true] at h2
      refine ⟨?_, ?_, ?_⟩ <;> simp [h1, h2]

/-- C6 (amended): for every finite double `x`, precision `p ≥ 1` and
rounding mode, with the position `n` present the kernel raises carry
exactly when `x` is nonzero, the rounded significand is nonzero, the
normalized exponent of the result exceeds that of `x`, and the normalized
exponent of `x` is at least `n + p`; with `n` absent the kernel never
raises carry (the gate compares the bumped exponent against the default
`emin = 1024`, which no double result exceeds). -/
theorem carry_flag_spec (x p : ℕ) (nn : ℤ) (rm : RM)
    (hfin : finiteB x = true) (hp : 1 ≤ p) :
    ((roundDoubleCore x p (Option.some nn) rm).fl.carry = true ↔
      (magBits x ≠ 0 ∧ (roundDoubleCore x p (Option.some nn) rm).c ≠ 0 ∧
       (decodeNorm x).2.1 < (roundDoubleCore x p (Option.some nn) rm).e ∧
       nn + (p : ℤ) ≤ (decodeNorm x).2.1)) ∧
    (roundDoubleCore x p Option.none rm).fl.carry = false := by
  obtain ⟨hz, hnorm, hbnd, -⟩ := decodeNorm_spec x hfin
  rw [roundDoubleCore_finite x p (Option.some nn) rm hfin,
    roundDoubleCore_finite x p Option.none rm hfin]
  by_cases hc : (decodeNorm x).2.2 = 0
  · simp only [round_finalize_core, if_pos hc]
    exact ⟨⟨fun hcar => absurd hcar (by simp [Flags.clear]),
      fun hr => absurd (hz.mp hc) hr.1⟩, by simp [Flags.clear]⟩
  · have hmag : magBits x ≠ 0 := fun hm => hc (hz.mpr hm)
    obtain ⟨hetop, hebot⟩ := hbnd hc
    rw [round_finalize_core_ne 53 _ _ _ _ _ _ hc,
      round_finalize_core_ne 53 _ _ _ _ _ _ hc]
    constructor
    · by_cases ht : (decodeNorm x).2.1 < nn + (p : ℤ)
      · by_cases hov : p < (nn + (p : ℤ) - (decodeNorm x).2.1).toNat
        · rw [kernelParams_some_over p _ nn ht hov]
          obtain ⟨hcar, -, -⟩ := kernelFinish_parts 53 (decodeNorm x).1
            (decodeNorm x).2.2 p (decodeNorm x).2.1 rm (nn + (p : ℤ)) true true 0 nn
          rw [hcar]
          constructor
          · intro hh
            simp only [Bool.and_eq_true, decide_eq_true_eq] at hh
            exfalso
            omega
          · intro hh
            exact absurd hh.2.2.2 (by omega)
        · rw [kernelParams_some_tiny p _ nn ht hov]
          obtain ⟨hcar, -, -⟩ := kernelFinish_parts 53 (decodeNorm x).1
            (decodeNorm x).2.2 p (decodeNorm x).2.1 rm (nn + (p : ℤ)) true false
            (p - (nn + (p : ℤ) - (decodeNorm x).2.1).toNat) (decodeNorm x).2.1
          rw [hcar]
          constructor
          · intro hh
            simp only [Bool.and_eq_true, decide_eq_true_eq] at hh
            exfalso
            omega
          · intro hh
            exact absurd hh.2.2.2 (by omega)
      · rw [kernelParams_some_ge p _ nn ht]
        obtain ⟨hcar, he, hcv⟩ := kernelFinish_parts 53 (decodeNorm x).1
          (decodeNorm x).2.2 p (decodeNorm x).2.1 rm (nn + (p : ℤ)) false false
          p (decodeNorm x).2.1
        rw [hcar, he, hcv]
        by_cases hco : (decide ((decodeNorm x).2.2 % 2 ^ (if p < 53 then 53 - p else 0) ≠ 0) &&
            round_increment (decodeNorm x).1
              ((decodeNorm x).2.2 - (decodeNorm x).2.2 % 2 ^ (if p < 53 then 53 - p else 0))
              ((decodeNorm x).2.2 % 2 ^ (if p < 53 then 53 - p else 0))
              (if p < 53 then 53 - p else 0) false rm &&
            decide (2 ^ 53 ≤ (decodeNorm x).2.2 -
              (decodeNorm x).2.2 % 2 ^ (if p < 53 then 53 - p else 0) +
              2 ^ (if p < 53 then 53 - p else 0))) = true
        · have hD : decide (nn + (p : ℤ) < (decodeNorm x).2.1 + 1) = true := by
            simp only [decide_eq_true_eq]
            omega
          have hparts := hco
          simp only [Bool.and_eq_true, decide_eq_true_eq] at hparts
          obtain ⟨⟨hA, hI⟩, hB⟩ := hparts
          constructor
          · intro _
            refine ⟨hmag, ?_, ?_, by omega⟩
            · rw [if_neg hA, if_pos hI, if_pos hB]
              have h52 : (2 : ℕ) ^ 52 ≤ ((decodeNorm x).2.2 -
                  (decodeNorm x).2.2 % 2 ^ (if p < 53 then 53 - p else 0) +
                  2 ^ (if p < 53 then 53 - p else 0)) / 2 := by
                calc (2 : ℕ) ^ 52 = 2 ^ 53 / 2 := by norm_num
                _ ≤ _ := Nat.div_le_div_right hB
              omega
            · rw [if_pos hco]
              omega
          · intro _
            rw [hco, hD]
            rfl
        · simp only [Bool.not_eq_true] at hco
          constructor
          · intro hh
            rw [hco] at hh
            exact absurd hh (by simp)
          · intro hh
            exfalso
            have h3 := hh.2.2.1
            rw [hco] at h3
            simp only [Bool.false_eq_true, if_false] at h3
            omega
    · rw [kernelParams_none]
      obtain ⟨hcar, -, -⟩ := kernelFinish_parts 53 (decodeNorm x).1
        (decodeNorm x).2.2 p (decodeNorm x).2.1 rm 1024 false false p
        (decodeNorm x).2.1
      rw [hcar]
      have hD : decide ((1024 : ℤ) < (decodeNorm x).2.1 + 1) = false := by
        simp only [decide_eq_false_iff_not]
        omega
      rw [hD]
      simp

/-- Witness for C6 at `x = 3.0`, `p = 1`, `n = -10`, RNA: rounding to one
bit carries into the next binade and the flag is raised. -/
theorem carry_flag_spec_witness :
    (roundDoubleCore (1024 * 2 ^ 52 + 2 ^ 51) 1 (Option.some (-10))
      RM.RNA).fl.carry = true :=
  (carry_flag_spec (1024 * 2 ^ 52 + 2 ^ 51) 1 (-10) RM.RNA (by decide)
      (by decide)).1.mpr
    ⟨by decide, by decide, by decide, by decide⟩


theorem kernelFinish_tiny_after (P : ℕ) (s : Bool) (c p : ℕ) (e : ℤ)
    (rm : RM) (emin : ℤ) (tb ov : Bool) (pk : ℕ) (e2 : ℤ) :
    (kernelFinish P s c p e rm emin tb ov pk e2).fl.tiny_after =
      (if c % 2 ^ (if pk < P then P - pk else 0) = 0 then tb
       else if tb then
         (if tinyAfterEasy P p e emin c then true
          else !(round_increment s (2 ^ ((if pk < P then P - pk else 0) - 1))
            (c % 2 ^ (if pk < P then P - pk else 0) %
              2 ^ ((if pk < P then P - pk else 0) - 1))
            ((if pk < P then P - pk else 0) - 1) false rm))
       else false) := by
  have hex : ∃ pl, (if pk < P then P - pk else 0) = pl := ⟨_, rfl⟩
  obtain ⟨pl, hpl⟩ := hex
  simp only [kernelFinish, hpl]
  by_cases h1 : c % 2 ^ pl = 0
  · rw [if_pos h1, if_pos h1]
  · rw [if_neg h1, if_neg h1]
    by_cases h2 : round_increment s (c - c % 2 ^ pl) (c % 2 ^ pl) pl ov rm = true
    · by_cases h3 : 2 ^ P ≤ c - c % 2 ^ pl + 2 ^ pl
      · rw [if_pos h2, if_pos h3]
      · rw [if_pos h2, if_neg h3]
    · rw [if_neg h2]

theorem round_increment_congr (s : Bool) (a b cl pl : ℕ) (ov : Bool)
    (rm : RM) (h : a.testBit pl = b.testBit pl) :
    round_increment s a cl pl ov rm = round_increment s b cl pl ov rm := by
  cases rm <;> simp [round_increment, h]

theorem testBit_mul_pow_self (a k : ℕ) :
    (a * 2 ^ k).testBit k = decide (a % 2 = 1) := by
  rw [Nat.testBit_to_div_mod, Nat.mul_div_cancel _ (pow_pos (by norm_num) k)]

theorem testBit_pow_self (k : ℕ) : (2 ^ k).testBit k = true := by
  rw [Nat.testBit_to_div_mod, Nat.div_self (pow_pos (by norm_num) k)]
  norm_num

theorem tiny_after_kernel (s : Bool) (e : ℤ) (c p : ℕ) (nn : ℤ) (rm : RM)
    (hc1 : 2 ^ 52 ≤ c) (hc2 : c < 2 ^ 53) (hp1 : 1 ≤ p) (hp53 : p ≤ 53) :
    ((round_finalize_core 53 s e c p (Option.some nn) rm).fl.tiny_after = true ↔
      ((round_finalize_core 53 s e c p Option.none rm).c = 0 ∨
       (round_finalize_core 53 s e c p Option.none rm).e < nn + (p : ℤ))) := by
  have hc : c ≠ 0 := by omega
  rw [round_finalize_core_ne 53 s e c p (Option.some nn) rm hc,
    round_finalize_core_ne 53 s e c p Option.none rm hc, kernelParams_none]
  obtain ⟨hucar, hue, hucv⟩ := kernelFinish_parts 53 s c p e rm 1024 false false p e
  have hplu : (if p < 53 then 53 - p else 0) = 53 - p := by
    by_cases h : p < 53
    · simp [h]
    · simp [h]
      omega
  rw [hplu] at hue hucv
  have hmpos : 0 < (2 : ℕ) ^ (53 - p) := pow_pos (by norm_num) _
  have hmle : (2 : ℕ) ^ (53 - p) ≤ 2 ^ 52 :=
    Nat.pow_le_pow_right (by norm_num) (by omega)
  have hr : c % 2 ^ (53 - p) < 2 ^ (53 - p) := Nat.mod_lt _ hmpos
  have hkpos : 0 < c - c % 2 ^ (53 - p) := by omega
  have hucne : (kernelFinish 53 s c p e rm 1024 false false p e).c ≠ 0 := by
    rw [hucv]
    split_ifs with h1 h2 h3
    · omega
    · have : 2 ^ 52 ≤ (c - c % 2 ^ (53 - p) + 2 ^ (53 - p)) / 2 := by
        calc (2 : ℕ) ^ 52 = 2 ^ 53 / 2 := by norm_num
        _ ≤ _ := Nat.div_le_div_right h3
      omega
    · omega
    · omega
  have h2p : (2 : ℕ) ^ p * 2 ^ (53 - p) = 2 ^ 53 := by
    rw [← pow_add]
    congr 1
    omega
  by_cases ht : e < nn + (p : ℤ)
  · -- tiny before rounding
    by_cases hov : p < (nn + (p : ℤ) - e).toNat
    · -- overshift: the value is at least a full binade below 2 ^ emin
      rw [kernelParams_some_over p e nn ht hov]
      rw [kernelFinish_tiny_after 53 s c p e rm (nn + (p : ℤ)) true true 0 nn]
      have he_lt : e < nn := by omega
      have heasy : tinyAfterEasy 53 p e (nn + (p : ℤ)) c = true := by
        simp only [tinyAfterEasy, Bool.or_eq_true, decide_eq_true_eq]
        left
        omega
      have hplO : (if (0 : ℕ) < 53 then 53 - 0 else 0) = 53 := by norm_num
      rw [hplO]
      have hcne : ¬ c % 2 ^ 53 = 0 := by
        rw [Nat.mod_eq_of_lt hc2]
        exact hc
      rw [if_neg hcne, if_pos rfl, if_pos heasy]
      constructor
      · intro _
        right
        rw [hue]
        split <;> omega
      · intro _
        rfl
    · -- tiny, no overshift
      rw [kernelParams_some_tiny p e nn ht hov]
      set k := (nn + (p : ℤ) - e).toNat with hk
      have hk1 : 1 ≤ k := by omega
      have hkp : k ≤ p := by omega
      rw [kernelFinish_tiny_after 53 s c p e rm (nn + (p : ℤ)) true false (p - k) e]
      have hplS : (if p - k < 53 then 53 - (p - k) else 0) = 53 - (p - k) := by
        rw [if_pos]
        omega
      rw [hplS]
      by_cases hE : e < nn + (p : ℤ) - 1
      · -- at least one binade below the boundary: always tiny after
        have heasy : tinyAfterEasy 53 p e (nn + (p : ℤ)) c = true := by
          simp only [tinyAfterEasy, Bool.or_eq_true, decide_eq_true_eq]
          left
          omega
        have hflag : (if c % 2 ^ (53 - (p - k)) = 0 then true
            else if true = true then
              (if tinyAfterEasy 53 p e (nn + (p : ℤ)) c = true then true
               else !(round_increment s (2 ^ (53 - (p - k) - 1))
                 (c % 2 ^ (53 - (p - k)) % 2 ^ (53 - (p - k) - 1))
                 (53 - (p - k) - 1) false rm)) else false) = true := by
          by_cases h1 : c % 2 ^ (53 - (p - k)) = 0
          · rw [if_pos h1]
          · rw [if_neg h1, if_pos rfl, if_pos heasy]
        rw [hflag]
        constructor
        · intro _
          right
          rw [hue]
          split <;> omega
        · intro _
          rfl
      · -- boundary binade: e = nn + p - 1
        have hE2 : e = nn + (p : ℤ) - 1 := by omega
        have hkeq : k = 1 := by omega
        have hplS1 : 53 - (p - k) = 54 - p := by omega
        rw [hplS1]
        have hm2 : (2 : ℕ) ^ (54 - p) = 2 ^ (53 - p) * 2 := by
          rw [show 54 - p = (53 - p) + 1 by omega, pow_succ]
        have hcutEq : (2 ^ p - 1) * 2 ^ (53 - p) = 2 ^ 53 - 2 ^ (53 - p) := by
          rw [Nat.sub_mul, one_mul, h2p]
        by_cases hcut : c ≤ (2 ^ p - 1) * 2 ^ (53 - p)
        · -- at or below the cutoff: easy tiny, and the unbounded run cannot carry
          have heasy : tinyAfterEasy 53 p e (nn + (p : ℤ)) c = true := by
            simp only [tinyAfterEasy, Bool.or_eq_true, decide_eq_true_eq]
            right
            exact hcut
          have hflag : (if c % 2 ^ (54 - p) = 0 then true
              else if true = true then
                (if tinyAfterEasy 53 p e (nn + (p : ℤ)) c = true then true
                 else !(round_increment s (2 ^ (54 - p - 1))
                   (c % 2 ^ (54 - p) % 2 ^ (54 - p - 1))
                   (54 - p - 1) false rm)) else false) = true := by
            by_cases h1 : c % 2 ^ (54 - p) = 0
            · rw [if_pos h1]
            · rw [if_neg h1, if_pos rfl, if_pos heasy]
          rw [hflag]
          constructor
          · intro _
            right
            rw [hue]
            by_cases hA : c % 2 ^ (53 - p) = 0
            · have hAf : decide (c % 2 ^ (53 - p) ≠ 0) = false := by
                simp [hA]
              simp only [hAf, Bool.false_and, Bool.false_eq_true, if_false]
              omega
            · -- below the cutoff the kept part cannot ride over 2 ^ 53
              have hdm := Nat.div_add_mod c (2 ^ (53 - p))
              have hqle : c / 2 ^ (53 - p) ≤ 2 ^ p - 1 := by
                have h := Nat.div_le_div_right (c := 2 ^ (53 - p)) hcut
                rwa [Nat.mul_div_cancel _ hmpos] at h
              have hqne : c / 2 ^ (53 - p) ≠ 2 ^ p - 1 := by
                intro hq
                rw [hq] at hdm
                have hbr : 2 ^ (53 - p) * (2 ^ p - 1) = (2 ^ p - 1) * 2 ^ (53 - p) :=
                  Nat.mul_comm _ _
                omega
              have hmono : 2 ^ (53 - p) * (c / 2 ^ (53 - p) + 1) ≤
                  2 ^ (53 - p) * (2 ^ p - 1) :=
                Nat.mul_le_mul_left _ (by omega)
              have hms : 2 ^ (53 - p) * (c / 2 ^ (53 - p) + 1) =
                  2 ^ (53 - p) * (c / 2 ^ (53 - p)) + 2 ^ (53 - p) := Nat.mul_succ _ _
              have hms2 : 2 ^ (53 - p) * (2 ^ p - 1) + 2 ^ (53 - p) =
                  2 ^ (53 - p) * 2 ^ p := by
                rw [← Nat.mul_succ]
                congr 1
                have : 0 < (2 : ℕ) ^ p := pow_pos (by norm_num) _
                omega
              have hEq : 2 ^ (53 - p) * 2 ^ p = 2 ^ 53 := by
                rw [Nat.mul_comm]
                exact h2p
              have hB : decide ((2 : ℕ) ^ 53 ≤ c - c % 2 ^ (53 - p) + 2 ^ (53 - p)) =
                  false := by
                simp only [decide_eq_false_iff_not, not_le]
                omega
              simp only [hB, Bool.and_false, Bool.false_eq_true, if_false]
              omega
          · intro _
            rfl
        · -- above the cutoff: the hard dry-run case
          have hA_u : c % 2 ^ (53 - p) ≠ 0 := by
            intro h0
            have hdm := Nat.div_add_mod c (2 ^ (53 - p))
            have hEq : 2 ^ (53 - p) * 2 ^ p = 2 ^ 53 := by
              rw [Nat.mul_comm]
              exact h2p
            have hqlt : c / 2 ^ (53 - p) < 2 ^ p := by
              by_contra hge
              push_neg at hge
              have := Nat.mul_le_mul_left (2 ^ (53 - p)) hge
              omega
            have hmono : 2 ^ (53 - p) * (c / 2 ^ (53 - p)) ≤
                2 ^ (53 - p) * (2 ^ p - 1) :=
              Nat.mul_le_mul_left _ (by omega)
            have hbr : 2 ^ (53 - p) * (2 ^ p - 1) = (2 ^ p - 1) * 2 ^ (53 - p) :=
              Nat.mul_comm _ _
            omega
          have hA_s : c % 2 ^ (54 - p) ≠ 0 := by
            intro h0
            have hdm := Nat.div_add_mod c (2 ^ (54 - p))
            have hEq : 2 ^ (54 - p) * 2 ^ (p - 1) = 2 ^ 53 := by
              rw [← pow_add]
              congr 1
              omega
            have hm2pos : 0 < (2 : ℕ) ^ (54 - p) := pow_pos (by norm_num) _
            have hqlt : c / 2 ^ (54 - p) < 2 ^ (p - 1) := by
              by_contra hge
              push_neg at hge
              have := Nat.mul_le_mul_left (2 ^ (54 - p)) hge
              omega
            have hmono : 2 ^ (54 - p) * (c / 2 ^ (54 - p)) ≤
                2 ^ (54 - p) * (2 ^ (p - 1) - 1) :=
              Nat.mul_le_mul_left _ (by omega)
            have hms : 2 ^ (54 - p) * (2 ^ (p - 1) - 1) + 2 ^ (54 - p) =
                2 ^ (54 - p) * 2 ^ (p - 1) := by
              rw [← Nat.mul_succ]
              congr 1
              have : 0 < (2 : ℕ) ^ (p - 1) := pow_pos (by norm_num) _
              omega
            omega
          have hck_u : c - c % 2 ^ (53 - p) = (2 ^ p - 1) * 2 ^ (53 - p) := by
            have hdm := Nat.div_add_mod c (2 ^ (53 - p))
            have hEq : 2 ^ (53 - p) * 2 ^ p = 2 ^ 53 := by
              rw [Nat.mul_comm]
              exact h2p
            have hqlt : c / 2 ^ (53 - p) < 2 ^ p := by
              by_contra hge
              push_neg at hge
              have := Nat.mul_le_mul_left (2 ^ (53 - p)) hge
              omega
            rcases Nat.lt_or_ge (c / 2 ^ (53 - p)) (2 ^ p - 1) with hlt | hge
            · exfalso
              have hmono : 2 ^ (53 - p) * (c / 2 ^ (53 - p)) ≤
                  2 ^ (53 - p) * (2 ^ p - 2) :=
                Nat.mul_le_mul_left _ (by omega)
              have hms : 2 ^ (53 - p) * (2 ^ p - 2) + 2 ^ (53 - p) =
                  2 ^ (53 - p) * (2 ^ p - 1) := by
                rw [← Nat.mul_succ]
                congr 1
                have : 1 < (2 : ℕ) ^ p :=
                  Nat.one_lt_two_pow_iff.mpr (by omega)
                omega
              have hbr : 2 ^ (53 - p) * (2 ^ p - 1) = (2 ^ p - 1) * 2 ^ (53 - p) :=
                Nat.mul_comm _ _
              omega
            · have hq : c / 2 ^ (53 - p) = 2 ^ p - 1 := by omega
              rw [hq] at hdm
              have hbr : 2 ^ (53 - p) * (2 ^ p - 1) = (2 ^ p - 1) * 2 ^ (53 - p) :=
                Nat.mul_comm _ _
              omega
          have heasyF : tinyAfterEasy 53 p e (nn + (p : ℤ)) c = false := by
            simp only [tinyAfterEasy, Bool.or_eq_false_iff,
              decide_eq_false_iff_not, not_lt, not_le]
            constructor
            · omega
            · omega
          rw [if_neg hA_s, if_pos rfl, heasyF]
          simp only [Bool.false_eq_true, if_false]
          rw [show 54 - p - 1 = 53 - p by omega]
          have hmm2 : c % 2 ^ (54 - p) % 2 ^ (53 - p) = c % 2 ^ (53 - p) :=
            Nat.mod_mod_of_dvd c (pow_dvd_pow 2 (by omega))
          rw [hmm2]
          have hodd : (2 ^ p - 1) % 2 = 1 := by
            have h2 : (2 : ℕ) ^ p = 2 ^ (p - 1) * 2 := by
              rw [← pow_succ]
              congr 1
              omega
            have : 0 < (2 : ℕ) ^ (p - 1) := pow_pos (by norm_num) _
            omega
          have hbits : ((2 : ℕ) ^ (53 - p)).testBit (53 - p) =
              (c - c % 2 ^ (53 - p)).testBit (53 - p) := by
            rw [testBit_pow_self, hck_u, testBit_mul_pow_self, hodd]
            simp
          rw [round_increment_congr s (2 ^ (53 - p)) (c - c % 2 ^ (53 - p))
            (c % 2 ^ (53 - p)) (53 - p) false rm hbits]
          rw [hue]
          have hAt : decide (c % 2 ^ (53 - p) ≠ 0) = true := by
            simp [hA_u]
          have hBt : decide ((2 : ℕ) ^ 53 ≤ c - c % 2 ^ (53 - p) + 2 ^ (53 - p)) =
              true := by
            simp only [decide_eq_true_eq]
            rw [hck_u]
            omega
          simp only [hAt, hBt, Bool.true_and, Bool.and_true]
          cases hinc : round_increment s (c - c % 2 ^ (53 - p)) (c % 2 ^ (53 - p))
              (53 - p) false rm
          · constructor
            · intro _
              right
              simp only [Bool.false_eq_true, if_false]
              omega
            · intro _
              simp
          · constructor
            · intro h
              simp at h
            · intro h
              exfalso
              rcases h with h | h
              · exact hucne h
              · rw [if_pos rfl] at h
                omega
  · -- not tiny: flag is false and the unbounded exponent stays at least nn + p
    rw [kernelParams_some_ge p e nn ht]
    rw [kernelFinish_tiny_after 53 s c p e rm (nn + (p : ℤ)) false false p e]
    have hflag : (if c % 2 ^ (if p < 53 then 53 - p else 0) = 0 then false
        else if false then
          (if tinyAfterEasy 53 p e (nn + (p : ℤ)) c then true
           else !(round_increment s (2 ^ ((if p < 53 then 53 - p else 0) - 1))
             (c % 2 ^ (if p < 53 then 53 - p else 0) %
               2 ^ ((if p < 53 then 53 - p else 0) - 1))
             ((if p < 53 then 53 - p else 0) - 1) false rm))
        else false) = false := by
      by_cases h1 : c % 2 ^ (if p < 53 then 53 - p else 0) = 0
      · rw [if_pos h1]
      · rw [if_neg h1]
        simp
    rw [hflag]
    constructor
    · intro h
      exact absurd h (by simp)
    · intro h
      exfalso
      rcases h with h | h
      · exact hucne h
      · rw [hue] at h
        split at h <;> omega

/-- C5: for every finite nonzero double `x`, every precision `p ≤ 53` (with
`1 ≤ p`), every position `n` and every rounding mode `rm`, the kernel raises
`tiny_after` iff rounding `x` at precision `p` under `rm` with unbounded
exponent range (kernel called with `n = None`) yields zero or a value whose
normalized exponent is below `n + p`. -/
theorem tiny_after_spec (x p : ℕ) (nn : ℤ) (rm : RM)
    (hfin : finiteB x = true) (hmag : magBits x ≠ 0)
    (hp1 : 1 ≤ p) (hp53 : p ≤ 53) :
    ((roundDoubleCore x p (Option.some nn) rm).fl.tiny_after = true ↔
      ((roundDoubleCore x p Option.none rm).c = 0 ∨
       (roundDoubleCore x p Option.none rm).e < nn + (p : ℤ))) := by
  obtain ⟨h0iff, hrange, _, _⟩ := decodeNorm_spec x hfin
  have hcne : (decodeNorm x).2.2 ≠ 0 := fun h => hmag (h0iff.mp h)
  rcases hrange with h0 | ⟨hlo, hhi⟩
  · exact absurd h0 hcne
  · rw [roundDoubleCore_finite x p (Option.some nn) rm hfin,
      roundDoubleCore_finite x p Option.none rm hfin]
    exact tiny_after_kernel (decodeNorm x).1 (decodeNorm x).2.1 (decodeNorm x).2.2
      p nn rm hlo hhi hp1 hp53

set_option maxRecDepth 10000 in
/-- Witness for C5 at `x = 3.0`, `p = 2`, `n = 0`, round-to-nearest-even. -/
theorem tiny_after_spec_witness :
    finiteB (1024 * 2 ^ 52 + 2 ^ 51) = true ∧
    magBits (1024 * 2 ^ 52 + 2 ^ 51) ≠ 0 ∧
    ((roundDoubleCore (1024 * 2 ^ 52 + 2 ^ 51) 2
        (Option.some 0) RM.RNE).fl.tiny_after = true ↔
      ((roundDoubleCore (1024 * 2 ^ 52 + 2 ^ 51) 2 Option.none RM.RNE).c = 0 ∨
       (roundDoubleCore (1024 * 2 ^ 52 + 2 ^ 51) 2
         Option.none RM.RNE).e < 0 + (2 : ℕ))) :=
  ⟨by decide, by decide,
    tiny_after_spec (1024 * 2 ^ 52 + 2 ^ 51) 2 0 RM.RNE
      (by decide) (by decide) (by decide) (by decide)⟩
theorem kernelFinish_s (P : ℕ) (s : Bool) (c p : ℕ) (e : ℤ) (rm : RM)
    (emin : ℤ) (tb ov : Bool) (pk : ℕ) (e2 : ℤ) :
    (kernelFinish P s c p e rm emin tb ov pk e2).s = s := by
  simp only [kernelFinish]
  repeat (first | rfl | split)

theorem round_finalize_core_s (P : ℕ) (s : Bool) (e : ℤ) (c p : ℕ)
    (n : Option ℤ) (rm : RM) :
    (round_finalize_core P s e c p n rm).s = s := by
  simp only [round_finalize_core]
  split
  · rfl
  · exact kernelFinish_s _ _ _ _ _ _ _ _ _ _ _

theorem dyadEq_of (c1 c2 : ℕ) (x1 x2 : ℤ) (d : ℕ) (hx : x2 = x1 + (d : ℤ))
    (hc : c1 = c2 * 2 ^ d) : dyadEq c1 x1 c2 x2 := by
  unfold dyadEq
  have hmin : min x1 x2 = x1 := by omega
  have h1 : (x1 - min x1 x2).toNat = 0 := by omega
  have h2 : (x2 - min x1 x2).toNat = d := by omega
  rw [h1, h2, pow_zero, mul_one, hc]

theorem idealRound_parts (s : Bool) (e g : ℤ) (m W p : ℕ) (n : Option ℤ)
    (rm : RM)
    (hg : (match n with
           | Option.none => e - (p : ℤ) + 1
           | Option.some nn => max (e - (p : ℤ) + 1) (nn + 1)) = g) :
    idealRound s e m W p n rm =
      (if idealInc s rm (m / 2 ^ (((W : ℤ) - 1) + (g - e)).toNat)
          (m % 2 ^ (((W : ℤ) - 1) + (g - e)).toNat)
          ((((W : ℤ) - 1) + (g - e)).toNat)
        then m / 2 ^ (((W : ℤ) - 1) + (g - e)).toNat + 1
        else m / 2 ^ (((W : ℤ) - 1) + (g - e)).toNat, g) := by
  subst hg
  rfl

theorem jam53_cases (c : ℕ) (σ : Bool) :
    jam53 c σ = c ∨ (jam53 c σ = c + 1 ∧ c % 2 = 0) := by
  unfold jam53 orOne
  split_ifs with h1 h2
  · exact Or.inr ⟨rfl, h2⟩
  · exact Or.inl rfl
  · exact Or.inl rfl

theorem jam_bridge (c pl : ℕ) (σ : Bool) (hpl : 2 ≤ pl) :
    jam53 c σ / 2 ^ pl = c / 2 ^ pl ∧
    (2 * c + (if σ then 1 else 0)) / 2 ^ (pl + 1) = c / 2 ^ pl ∧
    ((2 * c + (if σ then 1 else 0)) % 2 ^ (pl + 1) = 0 ↔
      jam53 c σ % 2 ^ pl = 0) ∧
    ((2 * c + (if σ then 1 else 0)) % 2 ^ (pl + 1) > 2 ^ pl ↔
      jam53 c σ % 2 ^ pl > 2 ^ (pl - 1)) ∧
    ((2 * c + (if σ then 1 else 0)) % 2 ^ (pl + 1) = 2 ^ pl ↔
      jam53 c σ % 2 ^ pl = 2 ^ (pl - 1)) := by
  have hp0 : 0 < (2 : ℕ) ^ pl := pow_pos (by norm_num) _
  have hp1 : 0 < (2 : ℕ) ^ (pl + 1) := pow_pos (by norm_num) _
  have hr : c % 2 ^ pl < 2 ^ pl := Nat.mod_lt _ hp0
  have hdm := Nat.div_add_mod c (2 ^ pl)
  have hS : (2 : ℕ) ^ (pl + 1) = 2 ^ pl * 2 := pow_succ 2 pl
  have hH : (2 : ℕ) ^ pl = 2 ^ (pl - 1) * 2 := by
    rw [← pow_succ]
    congr 1
    omega
  have hH2 : (2 : ℕ) ^ (pl - 1) = 2 ^ (pl - 2) * 2 := by
    rw [← pow_succ]
    congr 1
    omega
  have hpar : c % 2 ^ pl % 2 = c % 2 :=
    Nat.mod_mod_of_dvd c (dvd_pow_self 2 (by omega))
  cases σ with
  | false =>
      have hj : jam53 c false = c := rfl
      have hz : (if (false : Bool) = true then 1 else 0) = 0 := rfl
      rw [hj, hz, add_zero]
      have hm : 2 * c % 2 ^ (pl + 1) = 2 * (c % 2 ^ pl) := by
        rw [hS, mul_comm (2 ^ pl) 2]
        exact Nat.mul_mod_mul_left 2 c (2 ^ pl)
      have hd : 2 * c / 2 ^ (pl + 1) = c / 2 ^ pl := by
        rw [hS, mul_comm (2 ^ pl) 2]
        exact Nat.mul_div_mul_left c (2 ^ pl) (by norm_num)
      refine ⟨rfl, hd, ?_, ?_, ?_⟩
      · rw [hm]
        omega
      · rw [hm]
        omega
      · rw [hm]
        omega
  | true =>
      have hj : jam53 c true = orOne c := rfl
      have hz : (if (true : Bool) = true then 1 else 0) = 1 := rfl
      rw [hj, hz]
      have hb : c / 2 ^ pl * 2 ^ (pl + 1) = 2 * (2 ^ pl * (c / 2 ^ pl)) := by
        rw [hS]
        ring
      have huniq : (2 * (c % 2 ^ pl) + 1) + 2 ^ (pl + 1) * (c / 2 ^ pl) =
          2 * c + 1 ∧ 2 * (c % 2 ^ pl) + 1 < 2 ^ (pl + 1) := by
        constructor
        · have hb2 : 2 ^ (pl + 1) * (c / 2 ^ pl) = 2 * (2 ^ pl * (c / 2 ^ pl)) := by
            rw [hS]
            ring
          omega
        · omega
      obtain ⟨hdiv1, hmod1⟩ := (Nat.div_mod_unique hp1).mpr huniq
      by_cases hce : c % 2 = 0
      · have hjam : orOne c = c + 1 := by
          unfold orOne
          rw [if_pos hce]
        rw [hjam]
        have hre : c % 2 ^ pl % 2 = 0 := by
          rw [hpar]
          exact hce
        have hju : (c % 2 ^ pl + 1) + 2 ^ pl * (c / 2 ^ pl) = c + 1 ∧
            c % 2 ^ pl + 1 < 2 ^ pl := by
          constructor
          · omega
          · omega
        obtain ⟨hjd, hjm⟩ := (Nat.div_mod_unique hp0).mpr hju
        rw [hdiv1, hmod1, hjd, hjm]
        refine ⟨rfl, rfl, ?_, ?_, ?_⟩
        · omega
        · omega
        · omega
      · have hjam : orOne c = c := by
          unfold orOne
          rw [if_neg hce]
        rw [hjam]
        have hro : c % 2 ^ pl % 2 = 1 := by
          rw [hpar]
          omega
        rw [hdiv1, hmod1]
        refine ⟨rfl, rfl, ?_, ?_, ?_⟩
        · omega
        · omega
        · omega

theorem idealInc_exact (s : Bool) (rm : RM) (q D : ℕ) :
    idealInc s rm q 0 D = false := by
  have h : 0 < 2 ^ (D - 1) := pow_pos (by norm_num) _
  have h0 : decide ((0 : ℕ) = 2 ^ (D - 1)) = false := by
    simp only [decide_eq_false_iff_not]
    omega
  have h1 : decide ((0 : ℕ) > 2 ^ (D - 1)) = false := by
    simp only [decide_eq_false_iff_not, gt_iff_lt]
    omega
  have h2 : decide ((0 : ℕ) ≥ 2 ^ (D - 1)) = false := by
    simp only [decide_eq_false_iff_not, ge_iff_le]
    omega
  have h3 : decide ((0 : ℕ) ≠ 0) = false := by simp
  cases rm <;>
    simp only [idealInc, h0, h1, h2, h3, Bool.false_or, Bool.false_and,
      Bool.and_false, Bool.or_false]
  all_goals rfl
theorem inc_agree (s : Bool) (c pl : ℕ) (σ : Bool) (rm : RM) (hpl : 2 ≤ pl)
    (hne : jam53 c σ % 2 ^ pl ≠ 0) :
    round_increment s (jam53 c σ - jam53 c σ % 2 ^ pl) (jam53 c σ % 2 ^ pl) pl
        false rm =
      idealInc s rm ((2 * c + (if σ then 1 else 0)) / 2 ^ (pl + 1))
        ((2 * c + (if σ then 1 else 0)) % 2 ^ (pl + 1)) (pl + 1) := by
  obtain ⟨hjd, hmd, h0iff, hgt, heq⟩ := jam_bridge c pl σ hpl
  set j := jam53 c σ with hjdef
  set m := 2 * c + (if σ then 1 else 0) with hmdef
  have hrne : m % 2 ^ (pl + 1) ≠ 0 := fun h => hne (h0iff.mp h)
  have hq : m / 2 ^ (pl + 1) = j / 2 ^ pl := by rw [hmd, ← hjd]
  have hkb : (j - j % 2 ^ pl).testBit pl = (m / 2 ^ (pl + 1)).testBit 0 := by
    have hsub : j - j % 2 ^ pl = j / 2 ^ pl * 2 ^ pl := by
      have hdm := Nat.div_add_mod j (2 ^ pl)
      have hb : j / 2 ^ pl * 2 ^ pl = 2 ^ pl * (j / 2 ^ pl) := Nat.mul_comm _ _
      omega
    rw [hsub, testBit_mul_pow_self, hq, Nat.testBit_to_div_mod]
    norm_num
  have hd1 : decide (m % 2 ^ (pl + 1) ≠ 0) = true := by simp [hrne]
  cases rm
  case RNE =>
    simp only [round_increment, idealInc, Bool.false_or, Bool.not_false,
      Bool.true_and, Nat.add_sub_cancel]
    by_cases hcl : j % 2 ^ pl = 2 ^ (pl - 1)
    · have h1 : decide (j % 2 ^ pl ≠ 2 ^ (pl - 1)) = false := by simp [hcl]
      have hrm : m % 2 ^ (pl + 1) = 2 ^ pl := heq.mpr hcl
      have h2 : decide (m % 2 ^ (pl + 1) > 2 ^ pl) = false := by
        simp [hrm]
      have h3 : decide (m % 2 ^ (pl + 1) = 2 ^ pl) = true := by simp [hrm]
      rw [h1, h2, h3, Bool.true_and, Bool.false_or]
      simp only [Bool.false_eq_true, if_false]
      exact hkb
    · have h1 : decide (j % 2 ^ pl ≠ 2 ^ (pl - 1)) = true := by simp [hcl]
      have h3 : decide (m % 2 ^ (pl + 1) = 2 ^ pl) = false := by
        simp only [decide_eq_false_iff_not]
        exact fun h => hcl (heq.mp h)
      rw [h1, h3, Bool.false_and, Bool.or_false, if_pos rfl]
      exact (decide_eq_decide.mpr hgt).symm
  case RNA =>
    simp only [round_increment, idealInc, Bool.false_or, Bool.not_false,
      Bool.true_and, Nat.add_sub_cancel]
    by_cases hcl : j % 2 ^ pl = 2 ^ (pl - 1)
    · have h1 : decide (j % 2 ^ pl ≠ 2 ^ (pl - 1)) = false := by simp [hcl]
      have hrm : m % 2 ^ (pl + 1) = 2 ^ pl := heq.mpr hcl
      have h2 : decide (m % 2 ^ (pl + 1) ≥ 2 ^ pl) = true := by simp [hrm]
      rw [h1, h2]
      simp only [Bool.false_eq_true, if_false]
    · have h1 : decide (j % 2 ^ pl ≠ 2 ^ (pl - 1)) = true := by simp [hcl]
      rw [h1, if_pos rfl]
      have hiff : m % 2 ^ (pl + 1) ≥ 2 ^ pl ↔ j % 2 ^ pl > 2 ^ (pl - 1) := by
        constructor
        · intro h
          rcases Nat.eq_or_lt_of_le h with h2 | h2
          · exact absurd h2.symm (fun hh => hcl (heq.mp hh))
          · exact hgt.mp h2
        · intro h
          exact le_of_lt (hgt.mpr h)
      exact (decide_eq_decide.mpr hiff).symm
  case RTP =>
    simp only [round_increment, idealInc, hd1, Bool.and_true]
  case RTN =>
    simp only [round_increment, idealInc, hd1, Bool.and_true]
  case RTZ =>
    simp only [round_increment, idealInc]
  case RAZ =>
    simp only [round_increment, idealInc, hd1]
  case RTO =>
    simp only [round_increment, idealInc, hd1, Bool.true_and, hkb]
  case RTE =>
    simp only [round_increment, idealInc, hd1, Bool.true_and, hkb]
theorem kernelFinish_value (s : Bool) (e emin : ℤ) (c : ℕ) (σ : Bool)
    (p pk pl : ℕ) (rm : RM) (tb : Bool)
    (hpl2 : 2 ≤ pl)
    (hplk : (if pk < 53 then 53 - pk else 0) = pl) :
    dyadEq (kernelFinish 53 s (jam53 c σ) p e rm emin tb false pk e).c
      ((kernelFinish 53 s (jam53 c σ) p e rm emin tb false pk e).e - 52)
      (if idealInc s rm ((2 * c + (if σ then 1 else 0)) / 2 ^ (pl + 1))
          ((2 * c + (if σ then 1 else 0)) % 2 ^ (pl + 1)) (pl + 1)
        then (2 * c + (if σ then 1 else 0)) / 2 ^ (pl + 1) + 1
        else (2 * c + (if σ then 1 else 0)) / 2 ^ (pl + 1))
      (e + (pl : ℤ) - 52) := by
  obtain ⟨hjd, hmd, h0iff, _, _⟩ := jam_bridge c pl σ hpl2
  obtain ⟨hkcar, hke, hkc⟩ :=
    kernelFinish_parts 53 s (jam53 c σ) p e rm emin tb false pk e
  rw [hplk] at hke hkc
  set j := jam53 c σ with hjdef
  set m := 2 * c + (if σ then 1 else 0) with hmdef
  have hq : m / 2 ^ (pl + 1) = j / 2 ^ pl := by rw [hmd, ← hjd]
  have hjdm := Nat.div_add_mod j (2 ^ pl)
  have hsub : j - j % 2 ^ pl = j / 2 ^ pl * 2 ^ pl := by
    have hb : j / 2 ^ pl * 2 ^ pl = 2 ^ pl * (j / 2 ^ pl) := Nat.mul_comm _ _
    omega
  by_cases hx : j % 2 ^ pl = 0
  · have hrm : m % 2 ^ (pl + 1) = 0 := h0iff.mpr hx
    have hA : decide (j % 2 ^ pl ≠ 0) = false := by simp [hx]
    rw [hke, hkc, if_pos hx, hrm, idealInc_exact, hA]
    simp only [Bool.false_and, Bool.false_eq_true, if_false]
    apply dyadEq_of _ _ _ _ pl (by push_cast; ring)
    rw [hq]
    omega
  · have hA : decide (j % 2 ^ pl ≠ 0) = true := by simp [hx]
    have hinc := inc_agree s c pl σ rm hpl2 hx
    rw [hke, hkc, if_neg hx, hA, hinc, Bool.true_and]
    cases hIv : idealInc s rm (m / 2 ^ (pl + 1)) (m % 2 ^ (pl + 1)) (pl + 1)
    · simp only [Bool.false_eq_true, if_false, Bool.and_false, Bool.false_and]
      apply dyadEq_of _ _ _ _ pl (by push_cast; ring)
      rw [hq]
      omega
    · simp only [Bool.true_and, if_true]
      have hkp : j - j % 2 ^ pl + 2 ^ pl = (j / 2 ^ pl + 1) * 2 ^ pl := by
        rw [hsub]
        ring
      by_cases hB : 2 ^ 53 ≤ j - j % 2 ^ pl + 2 ^ pl
      · have hBD : decide ((2 : ℕ) ^ 53 ≤ j - j % 2 ^ pl + 2 ^ pl) = true := by
          simp only [decide_eq_true_eq]
          exact hB
        rw [if_pos hB, hBD, if_pos (show (true : Bool) = true from rfl)]
        have hhalf : (2 : ℕ) ^ pl = 2 ^ (pl - 1) * 2 := by
          rw [← pow_succ]
          congr 1
          omega
        have hdiv2 : (j / 2 ^ pl + 1) * 2 ^ pl / 2 =
            (j / 2 ^ pl + 1) * 2 ^ (pl - 1) := by
          rw [hhalf, ← Nat.mul_assoc, Nat.mul_div_cancel _ (by norm_num)]
        rw [hkp, hdiv2, hq]
        exact dyadEq_of _ _ _ _ (pl - 1) (by omega) rfl
      · have hBD : decide ((2 : ℕ) ^ 53 ≤ j - j % 2 ^ pl + 2 ^ pl) = false := by
          simp only [decide_eq_false_iff_not]
          exact hB
        rw [if_neg hB, hBD]
        simp only [Bool.false_eq_true, if_false]
        rw [hkp, hq]
        exact dyadEq_of _ _ _ _ pl (by push_cast; ring) rfl
/-- C1 (as amended: the claimed range `p ≤ 53` must be restricted to
`2 ≤ p ≤ 51`): for every 53-bit round-to-odd intermediate `jam53 c σ` of an
exact result of magnitude `(2c + σ) · 2 ^ (e - 53)` (with `2 ^ 52 ≤ c <
2 ^ 53` and sticky bit `σ`), re-rounding through the kernel
`round_finalize` at precision `p`, any position `n`, and any rounding mode
returns the sign and, as a dyadic value, exactly the one-step correct
rounding of the exact result — two-step rounding through round-to-odd
equals one-step. -/
theorem rto_rerounding_spec (s : Bool) (e : ℤ) (c : ℕ) (σ : Bool) (p : ℕ)
    (n : Option ℤ) (rm : RM) (hc1 : 2 ^ 52 ≤ c) (hc2 : c < 2 ^ 53)
    (hp2 : 2 ≤ p) (hp51 : p ≤ 51) :
    (round_finalize_core 53 s e (jam53 c σ) p n rm).s = s ∧
    dyadEq (round_finalize_core 53 s e (jam53 c σ) p n rm).c
      ((round_finalize_core 53 s e (jam53 c σ) p n rm).e - 52)
      (idealRound s e (2 * c + (if σ then 1 else 0)) 54 p n rm).1
      (idealRound s e (2 * c + (if σ then 1 else 0)) 54 p n rm).2 := by
  have hj1 : 2 ^ 52 ≤ jam53 c σ ∧ jam53 c σ < 2 ^ 53 := by
    rcases jam53_cases c σ with h | ⟨h, he⟩
    · omega
    · omega
  have hjne : jam53 c σ ≠ 0 := by omega
  refine ⟨round_finalize_core_s _ _ _ _ _ _ _, ?_⟩
  rw [round_finalize_core_ne 53 s e (jam53 c σ) p n rm hjne]
  cases n with
  | none =>
      rw [kernelParams_none]
      have hplk : (if p < 53 then 53 - p else 0) = 53 - p := by
        rw [if_pos (by omega : p < 53)]
      have hval := kernelFinish_value s e 1024 c σ p p (53 - p) rm false
        (by omega) hplk
      rw [idealRound_parts s e (e - (p : ℤ) + 1)
        (2 * c + (if σ then 1 else 0)) 54 p Option.none rm rfl]
      have hD : (((54 : ℕ) : ℤ) - 1 + (e - (p : ℤ) + 1 - e)).toNat =
          (53 - p) + 1 := by omega
      simp only [hD]
      have hE : e + ((53 - p : ℕ) : ℤ) - 52 = e - (p : ℤ) + 1 := by omega
      rw [hE] at hval
      exact hval
  | some nn =>
      by_cases ht : e < nn + (p : ℤ)
      · by_cases hov : p < (nn + (p : ℤ) - e).toNat
        · -- overshift: every digit of the intermediate lies below position n
          rw [kernelParams_some_over p e nn ht hov]
          obtain ⟨_, hke, hkc⟩ :=
            kernelFinish_parts 53 s (jam53 c σ) p e rm (nn + (p : ℤ)) true true 0 nn
          have hpl53 : (if (0 : ℕ) < 53 then 53 - 0 else 0) = 53 := by norm_num
          rw [hpl53] at hke hkc
          set j := jam53 c σ with hjdef
          have hj53 : j % 2 ^ 53 = j := Nat.mod_eq_of_lt hj1.2
          have hx : j % 2 ^ 53 ≠ 0 := by
            rw [hj53]
            omega
          have hk0 : j - j % 2 ^ 53 = 0 := by
            rw [hj53]
            omega
          set m := 2 * c + (if σ then 1 else 0) with hmdef
          have hσb : (if σ = true then (1 : ℕ) else 0) ≤ 1 := by
            split <;> omega
          have h53 : (2 : ℕ) ^ 53 = 2 * 2 ^ 52 := by norm_num
          have h54 : (2 : ℕ) ^ 54 = 2 * 2 ^ 53 := by norm_num
          have hmlb : 2 ^ 53 ≤ m := by omega
          have hmub : m < 2 ^ 54 := by omega
          have hen : e < nn := by omega
          rw [idealRound_parts s e (nn + 1) m 54 p (Option.some nn) rm
            (by show max (e - (p : ℤ) + 1) (nn + 1) = nn + 1; omega)]
          set D := (((54 : ℕ) : ℤ) - 1 + (nn + 1 - e)).toNat with hD
          have hD55 : 55 ≤ D := by omega
          have hmD : m < 2 ^ (D - 1) :=
            lt_of_lt_of_le hmub (Nat.pow_le_pow_right (by norm_num) (by omega))
          have hmD2 : m < 2 ^ D :=
            lt_of_lt_of_le hmub (Nat.pow_le_pow_right (by norm_num) (by omega))
          have hqz : m / 2 ^ D = 0 := Nat.div_eq_of_lt hmD2
          have hrm : m % 2 ^ D = m := Nat.mod_eq_of_lt hmD2
          have hmne : m ≠ 0 := by omega
          have hinc : round_increment s (j - j % 2 ^ 53) (j % 2 ^ 53) 53 true rm =
              idealInc s rm (m / 2 ^ D) (m % 2 ^ D) D := by
            rw [hqz, hrm, hk0]
            have hgt : decide (m > 2 ^ (D - 1)) = false := by
              simp only [decide_eq_false_iff_not, gt_iff_lt, not_lt]
              omega
            have heq2 : decide (m = 2 ^ (D - 1)) = false := by
              simp only [decide_eq_false_iff_not]
              omega
            have hge : decide (m ≥ 2 ^ (D - 1)) = false := by
              simp only [decide_eq_false_iff_not, ge_iff_le, not_le]
              omega
            have hne2 : decide (m ≠ 0) = true := by simp [hmne]
            have hzb : Nat.testBit 0 53 = false := Nat.zero_testBit 53
            have hzb0 : Nat.testBit 0 0 = false := Nat.zero_testBit 0
            cases rm <;>
              simp only [round_increment, idealInc, hgt, heq2, hge, hne2, hzb,
                hzb0, Bool.true_or, Bool.not_true, Bool.false_and, Bool.false_or,
                Bool.and_false, Bool.true_and, Bool.or_false, Bool.and_true,
                Bool.not_false, if_true]
            all_goals rfl
          rw [hke, hkc, if_neg hx, hinc, hk0]
          have hA : decide (j % 2 ^ 53 ≠ 0) = true := by
            simp only [ne_eq, decide_eq_true_eq]
            exact hx
          have hBc : decide ((2 : ℕ) ^ 53 ≤ 0 + 2 ^ 53) = true := by
            simp only [decide_eq_true_eq]
            omega
          rw [hA, hBc, if_pos (show (2 : ℕ) ^ 53 ≤ 0 + 2 ^ 53 by omega)]
          have hhalf : (0 + (2 : ℕ) ^ 53) / 2 = 2 ^ 52 := by norm_num
          rw [hhalf]
          simp only [Bool.true_and, Bool.and_true]
          cases hIv : idealInc s rm (m / 2 ^ D) (m % 2 ^ D) D
          · simp only [Bool.false_eq_true, if_false]
            rw [hqz]
            exact dyadEq_of _ _ _ _ 53 (by omega) (by norm_num)
          · simp only [if_true]
            rw [hqz]
            exact dyadEq_of _ _ _ _ 52 (by omega) (by norm_num)
        · -- tiny without overshift
          rw [kernelParams_some_tiny p e nn ht hov]
          set k := (nn + (p : ℤ) - e).toNat with hk
          have hk1 : 1 ≤ k := by omega
          have hkp : k ≤ p := by omega
          have hplk : (if p - k < 53 then 53 - (p - k) else 0) = 53 - p + k := by
            rw [if_pos (by omega : p - k < 53)]
            omega
          have hval := kernelFinish_value s e (nn + (p : ℤ)) c σ p (p - k)
            (53 - p + k) rm true (by omega) hplk
          rw [idealRound_parts s e (nn + 1) (2 * c + (if σ then 1 else 0)) 54 p
            (Option.some nn) rm
            (by show max (e - (p : ℤ) + 1) (nn + 1) = nn + 1; omega)]
          have hD : (((54 : ℕ) : ℤ) - 1 + (nn + 1 - e)).toNat =
              (53 - p + k) + 1 := by omega
          simp only [hD]
          have hE : e + ((53 - p + k : ℕ) : ℤ) - 52 = nn + 1 := by omega
          rw [hE] at hval
          exact hval
      · rw [kernelParams_some_ge p e nn ht]
        have hplk : (if p < 53 then 53 - p else 0) = 53 - p := by
          rw [if_pos (by omega : p < 53)]
        have hval := kernelFinish_value s e (nn + (p : ℤ)) c σ p p (53 - p) rm
          false (by omega) hplk
        rw [idealRound_parts s e (e - (p : ℤ) + 1)
          (2 * c + (if σ then 1 else 0)) 54 p (Option.some nn) rm
          (by show max (e - (p : ℤ) + 1) (nn + 1) = e - (p : ℤ) + 1; omega)]
        have hD : (((54 : ℕ) : ℤ) - 1 + (e - (p : ℤ) + 1 - e)).toNat =
            (53 - p) + 1 := by omega
        simp only [hD]
        have hE : e + ((53 - p : ℕ) : ℤ) - 52 = e - (p : ℤ) + 1 := by omega
        rw [hE] at hval
        exact hval
set_option maxRecDepth 10000 in
/-- C1 counterexample to the claimed range `p ≤ 53`: at `p = 52` (round to
nearest even, `n` absent) the exact value `(2 ^ 53 + 5) · 2 ^ (-53)` — the
round-to-odd intermediate `jam53 (2 ^ 52 + 2) true = 2 ^ 52 + 3` — re-rounds
through the kernel to `(2 ^ 52 + 4) · 2 ^ (-52)` while the one-step correct
rounding is `(2 ^ 51 + 1) · 2 ^ (-51)`: the jammed tie breaks upward where
the exact remainder lies below the halfway point. -/
theorem rto_rerounding_counterexample :
    ¬ dyadEq (round_finalize_core 53 false 0 (jam53 (2 ^ 52 + 2) true) 52
        Option.none RM.RNE).c
      ((round_finalize_core 53 false 0 (jam53 (2 ^ 52 + 2) true) 52
        Option.none RM.RNE).e - 52)
      (idealRound false 0 (2 * (2 ^ 52 + 2) + (if true then 1 else 0)) 54 52
        Option.none RM.RNE).1
      (idealRound false 0 (2 * (2 ^ 52 + 2) + (if true then 1 else 0)) 54 52
        Option.none RM.RNE).2 := by
  unfold dyadEq
  decide

set_option maxRecDepth 10000 in
/-- Witness for C1 at `c = 2 ^ 52`, sticky set, `p = 2`, `n` absent, RNE. -/
theorem rto_rerounding_spec_witness :
    (2 : ℕ) ^ 52 ≤ 2 ^ 52 ∧ ((2 : ℕ) ^ 52 < 2 ^ 53) ∧
    ((round_finalize_core 53 false 0 (jam53 (2 ^ 52) true) 2 Option.none
        RM.RNE).s = false ∧
     dyadEq (round_finalize_core 53 false 0 (jam53 (2 ^ 52) true) 2
        Option.none RM.RNE).c
      ((round_finalize_core 53 false 0 (jam53 (2 ^ 52) true) 2 Option.none
        RM.RNE).e - 52)
      (idealRound false 0 (2 * 2 ^ 52 + (if true then 1 else 0)) 54 2
        Option.none RM.RNE).1
      (idealRound false 0 (2 * 2 ^ 52 + (if true then 1 else 0)) 54 2
        Option.none RM.RNE).2) :=
  ⟨by decide, by decide,
    rto_rerounding_spec false 0 (2 ^ 52) true 2 Option.none RM.RNE
      (by decide) (by decide) (by decide) (by decide)⟩
theorem kernelFinish_exact (P : ℕ) (s : Bool) (c p : ℕ) (e : ℤ) (rm : RM)
    (emin : ℤ) (tb ov : Bool) (pk : ℕ) (e2 : ℤ)
    (hdiv : c % 2 ^ (if pk < P then P - pk else 0) = 0) :
    kernelFinish P s c p e rm emin tb ov pk e2 =
      ⟨s, e2, c, { Flags.clear with tiny_before := tb, tiny_after := tb }⟩ := by
  simp only [kernelFinish]
  rw [if_pos hdiv, hdiv, Nat.sub_zero]

theorem encode53_eq (s : Bool) (e : ℤ) (c : ℕ) :
    encode 53 s e c =
      (if c = 0 then pattern s 0 0
       else if e < FP.EMIN then pattern s 0 (c / 2 ^ (FP.EMIN - e).toNat)
       else pattern s (e + FP.BIAS).toNat (c % 2 ^ 52)) := by
  simp only [encode]
  norm_num

theorem pattern_sign (s : Bool) (eb mb : ℕ) :
    pattern s eb mb = (if s then 2 ^ 63 else 0) + pattern false eb mb := by
  cases s <;> simp [pattern] <;> omega

theorem encode_sign (e : ℤ) (c : ℕ) (s : Bool) :
    encode 53 s e c = (if s then 2 ^ 63 else 0) + encode 53 false e c := by
  rw [encode53_eq, encode53_eq]
  by_cases h1 : c = 0
  · rw [if_pos h1, if_pos h1]
    exact pattern_sign _ _ _
  · rw [if_neg h1, if_neg h1]
    by_cases h2 : e < FP.EMIN
    · rw [if_pos h2, if_pos h2]
      exact pattern_sign _ _ _
    · rw [if_neg h2, if_neg h2]
      exact pattern_sign _ _ _

theorem encode_zero (s : Bool) (e : ℤ) : encode 53 s e 0 = pattern s 0 0 := by
  rw [encode53_eq]
  simp

theorem encode_small (s : Bool) (e : ℤ) (c : ℕ) (he : e < FP.EMIN)
    (hc : c < 2 ^ (FP.EMIN - e).toNat) :
    encode 53 s e c = pattern s 0 0 := by
  rw [encode53_eq]
  by_cases h0 : c = 0
  · rw [if_pos h0]
  · rw [if_neg h0, if_pos he, Nat.div_eq_of_lt hc]

theorem decodeNorm_encode (s : Bool) (e : ℤ) (c : ℕ)
    (hc1 : 2 ^ 52 ≤ c) (hc2 : c < 2 ^ 53) (he1 : -1074 ≤ e) (he2 : e ≤ 1023)
    (hgrid : 2 ^ ((FP.EMIN - e).toNat) ∣ c) :
    finiteB (encode 53 s e c) = true ∧
    decodeNorm (encode 53 s e c) = (s, e, c) ∧
    magBits (encode 53 s e c) ≠ 0 := by
  have hc0 : c ≠ 0 := by omega
  rw [encode53_eq, if_neg hc0]
  by_cases he : e < FP.EMIN
  · -- subnormal encoding
    rw [if_pos he]
    have he' : e < -1022 := by
      simp only [FP.EMIN] at he
      exact he
    set sh := (FP.EMIN - e).toNat with hsh
    have hsh2 : sh = (-1022 - e).toNat := by
      simp only [FP.EMIN] at hsh
      exact hsh
    have hshe : (sh : ℤ) = -1022 - e := by omega
    have hsh1 : 1 ≤ sh := by omega
    have hsh52 : sh ≤ 52 := by omega
    obtain ⟨c', hc'⟩ := hgrid
    have hpow : (0 : ℕ) < 2 ^ sh := pow_pos (by norm_num) _
    have hdiv : c / 2 ^ sh = c' := by
      rw [hc']
      exact Nat.mul_div_cancel_left _ hpow
    rw [hdiv]
    have hc'lb : 2 ^ (52 - sh) ≤ c' := by
      by_contra hlt
      push_neg at hlt
      have hmul : 2 ^ sh * c' < 2 ^ sh * 2 ^ (52 - sh) :=
        mul_lt_mul_of_pos_left hlt hpow
      have hpp : 2 ^ sh * 2 ^ (52 - sh) = 2 ^ 52 := by
        rw [← pow_add]
        congr 1
        omega
      omega
    have hc'ub : c' < 2 ^ (53 - sh) := by
      by_contra hge
      push_neg at hge
      have hmul : 2 ^ sh * 2 ^ (53 - sh) ≤ 2 ^ sh * c' :=
        Nat.mul_le_mul_left _ hge
      have hpp : 2 ^ sh * 2 ^ (53 - sh) = 2 ^ 53 := by
        rw [← pow_add]
        congr 1
        omega
      omega
    have hmb : c' < 2 ^ 52 :=
      lt_of_lt_of_le hc'ub (Nat.pow_le_pow_right (by norm_num) (by omega))
    have hf_e := ebitsOf_pattern s 0 c' (by norm_num) hmb
    have hf_m := mbitsOf_pattern s 0 c' hmb
    have hf_s := sgn_pattern s 0 c' (by norm_num) hmb
    have hbw : bit_width c' = 53 - sh := by
      have h := bit_width_eq c' (52 - sh) hc'lb
        (by rw [show 52 - sh + 1 = 53 - sh by omega]; exact hc'ub) (by omega)
      rw [show 52 - sh + 1 = 53 - sh by omega] at h
      exact h
    have hup : unpack_float (pattern s 0 c') = (s, FP.EXPMIN, c') := by
      unfold unpack_float
      simp only [hf_e, hf_m, hf_s]
      simp
    refine ⟨?_, ?_, ?_⟩
    · unfold finiteB
      rw [hf_e]
      simp
    · unfold decodeNorm
      rw [hup]
      dsimp only
      simp only [hbw, FP.P, FP.EXPMIN]
      rw [if_pos (show 53 - sh < 53 by omega),
        show 53 - (53 - sh) = sh by omega]
      simp only [Prod.mk.injEq]
      refine ⟨trivial, by push_cast; omega, by rw [mul_comm, ← hc']⟩
    · intro h
      have h1 : 2 ^ 63 ∣ pattern s 0 c' := Nat.dvd_of_mod_eq_zero h
      have h2 : 2 ^ 52 ∣ pattern s 0 c' :=
        dvd_trans (pow_dvd_pow 2 (by norm_num)) h1
      have h3 : mbitsOf (pattern s 0 c') = 0 := by
        unfold mbitsOf
        obtain ⟨t, ht⟩ := h2
        rw [ht]
        exact Nat.mul_mod_right _ _
      rw [hf_m] at h3
      have : 0 < 2 ^ (52 - sh) := pow_pos (by norm_num) _
      omega
  · -- normal encoding
    rw [if_neg he]
    have he' : -1022 ≤ e := by
      simp only [FP.EMIN] at he
      omega
    set eb := (e + FP.BIAS).toNat with heb
    have heb2 : eb = (e + 1023).toNat := by
      simp only [FP.BIAS] at heb
      exact heb
    have hebe : (eb : ℤ) = e + 1023 := by omega
    have heb1 : 1 ≤ eb := by omega
    have heb46 : eb ≤ 2046 := by omega
    have hmb : c % 2 ^ 52 < 2 ^ 52 := Nat.mod_lt _ (by positivity)
    have he11 : eb < 2 ^ 11 := by omega
    have hf_e := ebitsOf_pattern s eb (c % 2 ^ 52) he11 hmb
    have hf_m := mbitsOf_pattern s eb (c % 2 ^ 52) hmb
    have hf_s := sgn_pattern s eb (c % 2 ^ 52) he11 hmb
    have hsplit : 2 ^ 52 + c % 2 ^ 52 = c := by omega
    refine ⟨?_, ?_, ?_⟩
    · unfold finiteB
      rw [hf_e]
      simp only [ne_eq, decide_eq_true_eq]
      omega
    · have hup : unpack_float (pattern s eb (c % 2 ^ 52)) =
          (s, (eb : ℤ) - FP.BIAS - (FP.M : ℤ), 2 ^ 52 + c % 2 ^ 52) := by
        unfold unpack_float
        simp only [hf_e, hf_m, hf_s]
        rw [if_neg (by omega : ¬ eb = 0)]
      unfold decodeNorm
      rw [hup]
      dsimp only
      rw [hsplit]
      have hbw : bit_width c = 53 := bit_width_eq c 52 hc1 hc2 (by omega)
      simp only [hbw, FP.P]
      rw [if_neg (by omega : ¬ (53 : ℕ) < 53)]
      simp only [Prod.mk.injEq, FP.BIAS, FP.M]
      refine ⟨trivial, by push_cast; omega, by norm_num⟩
    · intro h
      have h0 : ebitsOf (0 : ℕ) = ebitsOf (pattern s eb (c % 2 ^ 52)) := by
        rw [← h]
        exact ebitsOf_magBits _
      rw [hf_e] at h0
      simp [ebitsOf] at h0
      omega

theorem mod_pow_eq_zero_of_le (a b : ℕ) (h : b ≤ a) : 2 ^ a % 2 ^ b = 0 := by
  obtain ⟨t, ht⟩ := pow_dvd_pow 2 h
  rw [ht]
  exact Nat.mul_mod_right _ _

theorem dvd_kept (c pl : ℕ) : 2 ^ pl ∣ c - c % 2 ^ pl := by
  have hdm := Nat.div_add_mod c (2 ^ pl)
  exact ⟨c / 2 ^ pl, by omega⟩

theorem kept_lb (c pl : ℕ) (hc1 : 2 ^ 52 ≤ c) (hpl : pl ≤ 52) :
    2 ^ 52 ≤ c - c % 2 ^ pl := by
  have hdm := Nat.div_add_mod c (2 ^ pl)
  have hr : c % 2 ^ pl < 2 ^ pl := Nat.mod_lt _ (pow_pos (by norm_num) _)
  have hq : 2 ^ (52 - pl) ≤ c / 2 ^ pl := by
    by_contra hlt
    push_neg at hlt
    have hmul : 2 ^ pl * (c / 2 ^ pl) ≤ 2 ^ pl * (2 ^ (52 - pl) - 1) :=
      Nat.mul_le_mul_left _ (by omega)
    have hms : 2 ^ pl * (2 ^ (52 - pl) - 1) + 2 ^ pl =
        2 ^ pl * 2 ^ (52 - pl) := by
      rw [← Nat.mul_succ]
      congr 1
      have : 0 < (2 : ℕ) ^ (52 - pl) := pow_pos (by norm_num) _
      omega
    have hpp : 2 ^ pl * 2 ^ (52 - pl) = 2 ^ 52 := by
      rw [← pow_add]
      congr 1
      omega
    omega
  have hmul2 : 2 ^ pl * 2 ^ (52 - pl) ≤ 2 ^ pl * (c / 2 ^ pl) :=
    Nat.mul_le_mul_left _ hq
  have hpp : 2 ^ pl * 2 ^ (52 - pl) = 2 ^ 52 := by
    rw [← pow_add]
    congr 1
    omega
  omega

theorem kept_carry_eq (c pl : ℕ) (hc2 : c < 2 ^ 53) (hpl : pl ≤ 53)
    (hB : 2 ^ 53 ≤ c - c % 2 ^ pl + 2 ^ pl) :
    c - c % 2 ^ pl + 2 ^ pl = 2 ^ 53 := by
  have hdm := Nat.div_add_mod c (2 ^ pl)
  have hpow : 0 < (2 : ℕ) ^ pl := pow_pos (by norm_num) _
  have hq : c / 2 ^ pl < 2 ^ (53 - pl) := by
    by_contra hge
    push_neg at hge
    have hmul : 2 ^ pl * 2 ^ (53 - pl) ≤ 2 ^ pl * (c / 2 ^ pl) :=
      Nat.mul_le_mul_left _ hge
    have hpp : 2 ^ pl * 2 ^ (53 - pl) = 2 ^ 53 := by
      rw [← pow_add]
      congr 1
      omega
    omega
  have hmul : 2 ^ pl * (c / 2 ^ pl) ≤ 2 ^ pl * (2 ^ (53 - pl) - 1) :=
    Nat.mul_le_mul_left _ (by omega)
  have hms : 2 ^ pl * (2 ^ (53 - pl) - 1) + 2 ^ pl =
      2 ^ pl * 2 ^ (53 - pl) := by
    rw [← Nat.mul_succ]
    congr 1
    have : 0 < (2 : ℕ) ^ (53 - pl) := pow_pos (by norm_num) _
    omega
  have hpp : 2 ^ pl * 2 ^ (53 - pl) = 2 ^ 53 := by
    rw [← pow_add]
    congr 1
    omega
  omega

theorem encode_top (s : Bool) :
    encode 53 s 1024 (2 ^ 52) = pattern s 2047 0 ∧
    finiteB (pattern s 2047 0) = false := by
  constructor
  · rw [encode53_eq]
    rw [if_neg (by positivity), if_neg (by simp only [FP.EMIN]; omega)]
    rw [Nat.mod_self]
    have h47 : ((1024 : ℤ) + FP.BIAS).toNat = 2047 := by
      simp only [FP.BIAS]
      omega
    rw [h47]
  · unfold finiteB
    rw [ebitsOf_pattern s 2047 0 (by norm_num) (by norm_num)]
    simp

theorem roundDouble_zero_pattern (s : Bool) (p : ℕ) (n : Option ℤ) (rm : RM) :
    roundDouble (pattern s 0 0) p n rm =
      (pattern s 0 0,
       { Flags.clear with tiny_before := true, tiny_after := true }) := by
  have hfe := ebitsOf_pattern s 0 0 (by norm_num) (by norm_num)
  have hfm := mbitsOf_pattern s 0 0 (by norm_num)
  have hfs := sgn_pattern s 0 0 (by norm_num) (by norm_num)
  have hfin : finiteB (pattern s 0 0) = true := by
    unfold finiteB
    rw [hfe]
    simp
  have hup : unpack_float (pattern s 0 0) = (s, FP.EXPMIN, 0) := by
    unfold unpack_float
    simp only [hfe, hfm, hfs]
    simp
  have hdec : decodeNorm (pattern s 0 0) = (s, FP.EXPMIN - 53 + 52, 0) := by
    unfold decodeNorm
    rw [hup]
    dsimp only
    rw [show bit_width 0 = 0 from bwAux_zero 64]
    simp only [FP.P]
    rw [if_pos (by norm_num : (0 : ℕ) < 53)]
    simp only [Prod.mk.injEq]
    refine ⟨trivial, by push_cast; omega, by norm_num⟩
  have hcore : roundDoubleCore (pattern s 0 0) p n rm =
      ⟨s, FP.EXPMIN - 53 + 52, 0,
       { Flags.clear with tiny_before := true, tiny_after := true }⟩ := by
    unfold roundDoubleCore
    rw [if_pos hfin, hdec]
    dsimp only
    unfold round_finalize_core
    simp
  unfold roundDouble
  rw [if_pos hfin, hcore]
  dsimp only
  have henc : encode FP.P s (FP.EXPMIN - 53 + 52) 0 = pattern s 0 0 := by
    simp only [FP.P]
    exact encode_zero s _
  rw [henc]
theorem second_exact (s : Bool) (e' : ℤ) (c' p : ℕ) (n : Option ℤ) (rm : RM)
    (hc' : c' ≠ 0)
    (he2 : (kernelParams p e' n).2.2.2.2 = e')
    (hdvd : 2 ^ (if (kernelParams p e' n).2.2.2.1 < 53 then
        53 - (kernelParams p e' n).2.2.2.1 else 0) ∣ c') :
    ∃ b : Bool, round_finalize_core 53 s e' c' p n rm =
      ⟨s, e', c', { Flags.clear with tiny_before := b, tiny_after := b }⟩ := by
  refine ⟨(kernelParams p e' n).2.1, ?_⟩
  rw [round_finalize_core_ne 53 s e' c' p n rm hc']
  have hdiv : c' % 2 ^ (if (kernelParams p e' n).2.2.2.1 < 53 then
      53 - (kernelParams p e' n).2.2.2.1 else 0) = 0 := by
    obtain ⟨t, ht⟩ := hdvd
    rw [ht]
    exact Nat.mul_mod_right _ _
  rw [he2]
  exact kernelFinish_exact 53 s c' p e' rm (kernelParams p e' n).1
    (kernelParams p e' n).2.1 (kernelParams p e' n).2.2.1
    (kernelParams p e' n).2.2.2.1 e' hdiv

theorem grid_le (c g0 pl : ℕ) (hgrid : 2 ^ g0 ∣ c) (hx : c % 2 ^ pl ≠ 0) :
    g0 ≤ pl := by
  by_contra hgt
  push_neg at hgt
  have hdd : (2 : ℕ) ^ pl ∣ c := dvd_trans (pow_dvd_pow 2 (by omega)) hgrid
  obtain ⟨t, ht⟩ := hdd
  rw [ht, Nat.mul_mod_right] at hx
  exact hx rfl

theorem kernel_output_invariant (s : Bool) (e : ℤ) (c p : ℕ) (n : Option ℤ)
    (rm : RM) (hc1 : 2 ^ 52 ≤ c) (hc2 : c < 2 ^ 53)
    (he1 : -1074 ≤ e) (he2 : e ≤ 1023)
    (hgrid : 2 ^ ((FP.EMIN - e).toNat) ∣ c) (hp : 1 ≤ p)
    (hn : ∀ nn, n = Option.some nn → nn ≤ 1023) :
    (round_finalize_core 53 s e c p n rm).s = s ∧
    ((round_finalize_core 53 s e c p n rm).c = 0 ∨
     ((round_finalize_core 53 s e c p n rm).c = 2 ^ 52 ∧
      ((round_finalize_core 53 s e c p n rm).e < -1074 ∨
       (round_finalize_core 53 s e c p n rm).e = 1024)) ∨
     (2 ^ 52 ≤ (round_finalize_core 53 s e c p n rm).c ∧
      (round_finalize_core 53 s e c p n rm).c < 2 ^ 53 ∧
      -1074 ≤ (round_finalize_core 53 s e c p n rm).e ∧
      (round_finalize_core 53 s e c p n rm).e ≤ 1023 ∧
      2 ^ ((FP.EMIN - (round_finalize_core 53 s e c p n rm).e).toNat) ∣
        (round_finalize_core 53 s e c p n rm).c ∧
      (∀ s2 : Bool, ∃ b : Bool,
        round_finalize_core 53 s2 (round_finalize_core 53 s e c p n rm).e
          (round_finalize_core 53 s e c p n rm).c p n rm =
        ⟨s2, (round_finalize_core 53 s e c p n rm).e,
         (round_finalize_core 53 s e c p n rm).c,
         { Flags.clear with tiny_before := b, tiny_after := b }⟩))) := by
  have hcne : c ≠ 0 := by omega
  have hEM : FP.EMIN = (-1022 : ℤ) := rfl
  have h52pos : (0 : ℕ) < 2 ^ 52 := by norm_num
  rw [round_finalize_core_ne 53 s e c p n rm hcne]
  refine ⟨kernelFinish_s _ _ _ _ _ _ _ _ _ _ _, ?_⟩
  cases n with
  | none =>
      rw [kernelParams_none]
      have hplE : ∃ pl, (if p < 53 then 53 - p else 0) = pl ∧ pl ≤ 52 := by
        by_cases h : p < 53
        · exact ⟨53 - p, by rw [if_pos h], by omega⟩
        · exact ⟨0, by rw [if_neg h], by omega⟩
      obtain ⟨pl, hplk, hpl52⟩ := hplE
      by_cases hx : c % 2 ^ pl = 0
      · have hK := kernelFinish_exact 53 s c p e rm 1024 false false p e
          (by rw [hplk]; exact hx)
        rw [hK]
        dsimp only
        right; right
        refine ⟨hc1, hc2, he1, he2, hgrid, ?_⟩
        intro s2
        exact second_exact s2 e c p Option.none rm hcne rfl
          (by rw [kernelParams_none]; dsimp only; rw [hplk];
              exact Nat.dvd_of_mod_eq_zero hx)
      · obtain ⟨_, hke, hkc⟩ := kernelFinish_parts 53 s c p e rm 1024 false false p e
        rw [hplk] at hke hkc
        have hA : decide (c % 2 ^ pl ≠ 0) = true := by
          simp only [ne_eq, decide_eq_true_eq]
          exact hx
        have hck52 : 2 ^ 52 ≤ c - c % 2 ^ pl := kept_lb c pl hc1 hpl52
        have hckdvd : 2 ^ pl ∣ c - c % 2 ^ pl := dvd_kept c pl
        have hg0pl : (FP.EMIN - e).toNat ≤ pl := by
          by_contra hgt
          push_neg at hgt
          have hdd : (2 : ℕ) ^ pl ∣ c :=
            dvd_trans (pow_dvd_pow 2 (by omega)) hgrid
          obtain ⟨t, ht⟩ := hdd
          rw [ht, Nat.mul_mod_right] at hx
          exact hx rfl
        rw [hke, hkc, if_neg hx, hA, Bool.true_and]
        cases hI : round_increment s (c - c % 2 ^ pl) (c % 2 ^ pl) pl false rm
        · simp only [Bool.false_eq_true, if_false, Bool.false_and]
          right; right
          refine ⟨hck52, by omega, he1, he2,
            dvd_trans (pow_dvd_pow 2 hg0pl) hckdvd, ?_⟩
          intro s2
          exact second_exact s2 e _ p Option.none rm (by omega) rfl
            (by rw [kernelParams_none]; dsimp only; rw [hplk]; exact hckdvd)
        · by_cases hB : 2 ^ 53 ≤ c - c % 2 ^ pl + 2 ^ pl
          · have hBd : decide ((2 : ℕ) ^ 53 ≤ c - c % 2 ^ pl + 2 ^ pl) = true := by
              simp only [decide_eq_true_eq]
              exact hB
            have hceq := kept_carry_eq c pl hc2 (by omega) hB
            rw [if_pos hB, hBd, hceq]
            have h52 : (2 : ℕ) ^ 53 / 2 = 2 ^ 52 := by norm_num
            rw [h52]
            simp only [Bool.true_and, Bool.and_true, if_true]
            by_cases htop : e = 1023
            · right; left
              exact ⟨trivial, Or.inr (by omega)⟩
            · right; right
              refine ⟨le_refl _, by norm_num, by omega, by omega,
                pow_dvd_pow 2 (by rw [hEM]; omega), ?_⟩
              intro s2
              exact second_exact s2 (e + 1) (2 ^ 52) p Option.none rm (by positivity)
                rfl
                (by rw [kernelParams_none]; dsimp only; rw [hplk];
                    exact pow_dvd_pow 2 (by omega))
          · have hBd : decide ((2 : ℕ) ^ 53 ≤ c - c % 2 ^ pl + 2 ^ pl) = false := by
              simp only [decide_eq_false_iff_not]
              exact hB
            rw [if_neg hB, hBd]
            simp only [Bool.true_and, Bool.and_false, Bool.false_eq_true,
              if_false, if_true]
            right; right
            have hdvd2 : 2 ^ pl ∣ c - c % 2 ^ pl + 2 ^ pl :=
              Dvd.dvd.add hckdvd (dvd_refl _)
            refine ⟨by omega, by omega, he1, he2,
              dvd_trans (pow_dvd_pow 2 hg0pl) hdvd2, ?_⟩
            intro s2
            exact second_exact s2 e _ p Option.none rm (by omega) rfl
              (by rw [kernelParams_none]; dsimp only; rw [hplk]; exact hdvd2)
  | some nn =>
      have hnn : nn ≤ 1023 := hn nn rfl
      by_cases ht : e < nn + (p : ℤ)
      · by_cases hov : p < (nn + (p : ℤ) - e).toNat
        · -- overshift
          rw [kernelParams_some_over p e nn ht hov]
          have hen : e < nn := by omega
          obtain ⟨_, hke, hkc⟩ :=
            kernelFinish_parts 53 s c p e rm (nn + (p : ℤ)) true true 0 nn
          have hpl53o : (if (0 : ℕ) < 53 then 53 - 0 else 0) = 53 := by norm_num
          rw [hpl53o] at hke hkc
          have hc53 : c % 2 ^ 53 = c := Nat.mod_eq_of_lt hc2
          have hx : ¬ c % 2 ^ 53 = 0 := by
            rw [hc53]
            omega
          have hA : decide (c % 2 ^ 53 ≠ 0) = true := by
            simp only [ne_eq, decide_eq_true_eq]
            exact hx
          have hk0 : c - c % 2 ^ 53 = 0 := by
            rw [hc53]
            omega
          rw [hke, hkc, if_neg hx, hA, Bool.true_and, hk0]
          have hB : (2 : ℕ) ^ 53 ≤ 0 + 2 ^ 53 := by omega
          have hBd : decide ((2 : ℕ) ^ 53 ≤ 0 + 2 ^ 53) = true := by
            simp only [decide_eq_true_eq]
            exact hB
          rw [if_pos hB, hBd]
          have h52 : (0 + (2 : ℕ) ^ 53) / 2 = 2 ^ 52 := by norm_num
          rw [h52]
          cases hI : round_increment s 0 (c % 2 ^ 53) 53 true rm
          · simp only [Bool.false_eq_true, if_false, Bool.false_and]
            left
            trivial
          · simp only [Bool.true_and, Bool.and_true, if_true]
            by_cases hdeep : (nn : ℤ) + 1 < -1074
            · right; left
              exact ⟨by trivial, Or.inl hdeep⟩
            · by_cases htop2 : nn = 1023
              · right; left
                refine ⟨by trivial, Or.inr ?_⟩
                omega
              · right; right
                refine ⟨le_refl _, by norm_num, by omega, by omega,
                  pow_dvd_pow 2 (by rw [hEM]; omega), ?_⟩
                by_cases hp2 : (nn : ℤ) + 1 < nn + (p : ℤ)
                · have hnov2 : ¬ p < ((nn + (p : ℤ)) - (nn + 1)).toNat := by omega
                  intro s2
                  refine second_exact s2 (nn + 1) (2 ^ 52) p (Option.some nn) rm
                    (by positivity) ?_ ?_
                  · rw [kernelParams_some_tiny p (nn + 1) nn hp2 hnov2]
                  · rw [kernelParams_some_tiny p (nn + 1) nn hp2 hnov2]
                    dsimp only
                    have hsh2 : ((nn + (p : ℤ)) - (nn + 1)).toNat = p - 1 := by
                      omega
                    rw [hsh2, if_pos (by omega : p - (p - 1) < 53)]
                    exact pow_dvd_pow 2 (by omega)
                · intro s2
                  refine second_exact s2 (nn + 1) (2 ^ 52) p (Option.some nn) rm
                    (by positivity) ?_ ?_
                  · rw [kernelParams_some_ge p (nn + 1) nn hp2]
                  · rw [kernelParams_some_ge p (nn + 1) nn hp2]
                    dsimp only
                    by_cases h53 : p < 53
                    · rw [if_pos h53]
                      exact pow_dvd_pow 2 (by omega)
                    · rw [if_neg h53]
                      simp
        · -- tiny without overshift
          rw [kernelParams_some_tiny p e nn ht hov]
          set sh := (nn + (p : ℤ) - e).toNat with hshdef
          have hsh1 : 1 ≤ sh := by omega
          have hshp : sh ≤ p := by omega
          obtain ⟨_, hke, hkc⟩ :=
            kernelFinish_parts 53 s c p e rm (nn + (p : ℤ)) true false (p - sh) e
          have hplE : ∃ pl, (if p - sh < 53 then 53 - (p - sh) else 0) = pl ∧
              pl ≤ 53 := by
            by_cases h : p - sh < 53
            · exact ⟨53 - (p - sh), by rw [if_pos h], by omega⟩
            · exact ⟨0, by rw [if_neg h], by omega⟩
          obtain ⟨pl, hplk, hpl53⟩ := hplE
          rw [hplk] at hke hkc
          by_cases hx : c % 2 ^ pl = 0
          · have hK := kernelFinish_exact 53 s c p e rm (nn + (p : ℤ)) true false
              (p - sh) e (by rw [hplk]; exact hx)
            rw [hK]
            dsimp only
            right; right
            refine ⟨hc1, hc2, he1, he2, hgrid, ?_⟩
            intro s2
            refine second_exact s2 e c p (Option.some nn) rm hcne ?_ ?_
            · rw [kernelParams_some_tiny p e nn ht hov]
            · rw [kernelParams_some_tiny p e nn ht hov]
              dsimp only
              rw [← hshdef, hplk]
              exact Nat.dvd_of_mod_eq_zero hx
          · have hA : decide (c % 2 ^ pl ≠ 0) = true := by
              simp only [ne_eq, decide_eq_true_eq]
              exact hx
            have hpkne : p - sh < 53 := by
              by_contra hge
              apply hx
              have : pl = 0 := by
                rw [← hplk, if_neg hge]
              rw [this, pow_zero]
              exact Nat.mod_one c
            rw [hke, hkc, if_neg hx, hA, Bool.true_and]
            cases hI : round_increment s (c - c % 2 ^ pl) (c % 2 ^ pl) pl false rm
            · -- no increment
              simp only [Bool.false_eq_true, if_false, Bool.false_and, if_true]
              by_cases hck0 : c - c % 2 ^ pl = 0
              · left
                exact hck0
              · have hpl52 : pl ≤ 52 := by
                  by_contra hgt
                  push_neg at hgt
                  apply hck0
                  rw [show pl = 53 by omega, Nat.mod_eq_of_lt hc2]
                  omega
                have hck52 := kept_lb c pl hc1 hpl52
                have hckdvd := dvd_kept c pl
                have hg0pl : (FP.EMIN - e).toNat ≤ pl := grid_le c _ pl hgrid hx
                right; right
                refine ⟨hck52, by omega, he1, he2,
                  dvd_trans (pow_dvd_pow 2 hg0pl) hckdvd, ?_⟩
                intro s2
                refine second_exact s2 e _ p (Option.some nn) rm (by omega) ?_ ?_
                · rw [kernelParams_some_tiny p e nn ht hov]
                · rw [kernelParams_some_tiny p e nn ht hov]
                  dsimp only
                  rw [← hshdef, hplk]
                  exact hckdvd
            · by_cases hB : 2 ^ 53 ≤ c - c % 2 ^ pl + 2 ^ pl
              · -- carry
                have hBd : decide ((2 : ℕ) ^ 53 ≤ c - c % 2 ^ pl + 2 ^ pl) =
                    true := by
                  simp only [decide_eq_true_eq]
                  exact hB
                have hceq := kept_carry_eq c pl hc2 hpl53 hB
                rw [if_pos hB, hBd, hceq]
                have h52 : (2 : ℕ) ^ 53 / 2 = 2 ^ 52 := by norm_num
                rw [h52]
                simp only [Bool.true_and, Bool.and_true, if_true]
                by_cases htop : e = 1023
                · right; left
                  exact ⟨by trivial, Or.inr (by omega)⟩
                · right; right
                  refine ⟨le_refl _, by norm_num, by omega, by omega,
                    pow_dvd_pow 2 (by rw [hEM]; omega), ?_⟩
                  by_cases hp2 : e + 1 < nn + (p : ℤ)
                  · have hnov2 : ¬ p < ((nn + (p : ℤ)) - (e + 1)).toNat := by
                      omega
                    intro s2
                    refine second_exact s2 (e + 1) (2 ^ 52) p (Option.some nn) rm
                      (by positivity) ?_ ?_
                    · rw [kernelParams_some_tiny p (e + 1) nn hp2 hnov2]
                    · rw [kernelParams_some_tiny p (e + 1) nn hp2 hnov2]
                      dsimp only
                      have hsh2 : ((nn + (p : ℤ)) - (e + 1)).toNat = sh - 1 := by
                        omega
                      rw [hsh2]
                      by_cases hpk2 : p - (sh - 1) < 53
                      · rw [if_pos hpk2]
                        exact pow_dvd_pow 2 (by omega)
                      · rw [if_neg hpk2]
                        simp
                  · intro s2
                    refine second_exact s2 (e + 1) (2 ^ 52) p (Option.some nn) rm
                      (by positivity) ?_ ?_
                    · rw [kernelParams_some_ge p (e + 1) nn hp2]
                    · rw [kernelParams_some_ge p (e + 1) nn hp2]
                      dsimp only
                      by_cases h53 : p < 53
                      · rw [if_pos h53]
                        exact pow_dvd_pow 2 (by omega)
                      · rw [if_neg h53]
                        simp
              · -- no carry
                have hBd : decide ((2 : ℕ) ^ 53 ≤ c - c % 2 ^ pl + 2 ^ pl) =
                    false := by
                  simp only [decide_eq_false_iff_not]
                  exact hB
                have hpl52 : pl ≤ 52 := by
                  by_contra hgt
                  push_neg at hgt
                  apply hB
                  rw [show pl = 53 by omega]
                  omega
                rw [if_neg hB, hBd]
                simp only [Bool.true_and, Bool.and_false, Bool.false_eq_true,
                  if_false, if_true]
                have hck52 := kept_lb c pl hc1 hpl52
                have hckdvd := dvd_kept c pl
                have hg0pl : (FP.EMIN - e).toNat ≤ pl := grid_le c _ pl hgrid hx
                right; right
                have hdvd2 : 2 ^ pl ∣ c - c % 2 ^ pl + 2 ^ pl :=
                  Dvd.dvd.add hckdvd (dvd_refl _)
                refine ⟨by omega, by omega, he1, he2,
                  dvd_trans (pow_dvd_pow 2 hg0pl) hdvd2, ?_⟩
                intro s2
                refine second_exact s2 e _ p (Option.some nn) rm (by omega) ?_ ?_
                · rw [kernelParams_some_tiny p e nn ht hov]
                · rw [kernelParams_some_tiny p e nn ht hov]
                  dsimp only
                  rw [← hshdef, hplk]
                  exact hdvd2
      · -- not tiny
        rw [kernelParams_some_ge p e nn ht]
        have hplE : ∃ pl, (if p < 53 then 53 - p else 0) = pl ∧ pl ≤ 52 := by
          by_cases h : p < 53
          · exact ⟨53 - p, by rw [if_pos h], by omega⟩
          · exact ⟨0, by rw [if_neg h], by omega⟩
        obtain ⟨pl, hplk, hpl52⟩ := hplE
        by_cases hx : c % 2 ^ pl = 0
        · have hK := kernelFinish_exact 53 s c p e rm (nn + (p : ℤ)) false false
            p e (by rw [hplk]; exact hx)
          rw [hK]
          dsimp only
          right; right
          refine ⟨hc1, hc2, he1, he2, hgrid, ?_⟩
          intro s2
          refine second_exact s2 e c p (Option.some nn) rm hcne ?_ ?_
          · rw [kernelParams_some_ge p e nn ht]
          · rw [kernelParams_some_ge p e nn ht]
            dsimp only
            rw [hplk]
            exact Nat.dvd_of_mod_eq_zero hx
        · obtain ⟨_, hke, hkc⟩ :=
            kernelFinish_parts 53 s c p e rm (nn + (p : ℤ)) false false p e
          rw [hplk] at hke hkc
          have hA : decide (c % 2 ^ pl ≠ 0) = true := by
            simp only [ne_eq, decide_eq_true_eq]
            exact hx
          have hck52 := kept_lb c pl hc1 hpl52
          have hckdvd := dvd_kept c pl
          have hg0pl : (FP.EMIN - e).toNat ≤ pl := grid_le c _ pl hgrid hx
          rw [hke, hkc, if_neg hx, hA, Bool.true_and]
          cases hI : round_increment s (c - c % 2 ^ pl) (c % 2 ^ pl) pl false rm
          · simp only [Bool.false_eq_true, if_false, Bool.false_and, if_true]
            right; right
            refine ⟨hck52, by omega, he1, he2,
              dvd_trans (pow_dvd_pow 2 hg0pl) hckdvd, ?_⟩
            intro s2
            refine second_exact s2 e _ p (Option.some nn) rm (by omega) ?_ ?_
            · rw [kernelParams_some_ge p e nn ht]
            · rw [kernelParams_some_ge p e nn ht]
              dsimp only
              rw [hplk]
              exact hckdvd
          · by_cases hB : 2 ^ 53 ≤ c - c % 2 ^ pl + 2 ^ pl
            · have hBd : decide ((2 : ℕ) ^ 53 ≤ c - c % 2 ^ pl + 2 ^ pl) =
                  true := by
                simp only [decide_eq_true_eq]
                exact hB
              have hceq := kept_carry_eq c pl hc2 (by omega) hB
              rw [if_pos hB, hBd, hceq]
              have h52 : (2 : ℕ) ^ 53 / 2 = 2 ^ 52 := by norm_num
              rw [h52]
              simp only [Bool.true_and, Bool.and_true, if_true]
              by_cases htop : e = 1023
              · right; left
                exact ⟨by trivial, Or.inr (by omega)⟩
              · right; right
                refine ⟨le_refl _, by norm_num, by omega, by omega,
                  pow_dvd_pow 2 (by rw [hEM]; omega), ?_⟩
                have hge2 : ¬ e + 1 < nn + (p : ℤ) := by omega
                intro s2
                refine second_exact s2 (e + 1) (2 ^ 52) p (Option.some nn) rm
                  (by positivity) ?_ ?_
                · rw [kernelParams_some_ge p (e + 1) nn hge2]
                · rw [kernelParams_some_ge p (e + 1) nn hge2]
                  dsimp only
                  rw [hplk]
                  exact pow_dvd_pow 2 (by omega)
            · have hBd : decide ((2 : ℕ) ^ 53 ≤ c - c % 2 ^ pl + 2 ^ pl) =
                  false := by
                simp only [decide_eq_false_iff_not]
                exact hB
              rw [if_neg hB, hBd]
              simp only [Bool.true_and, Bool.and_false, Bool.false_eq_true,
                if_false, if_true]
              right; right
              have hdvd2 : 2 ^ pl ∣ c - c % 2 ^ pl + 2 ^ pl :=
                Dvd.dvd.add hckdvd (dvd_refl _)
              refine ⟨by omega, by omega, he1, he2,
                dvd_trans (pow_dvd_pow 2 hg0pl) hdvd2, ?_⟩
              intro s2
              refine second_exact s2 e _ p (Option.some nn) rm (by omega) ?_ ?_
              · rw [kernelParams_some_ge p e nn ht]
              · rw [kernelParams_some_ge p e nn ht]
                dsimp only
                rw [hplk]
                exact hdvd2
theorem roundDouble_idem (x p : ℕ) (n : Option ℤ) (rm : RM) (hp : 1 ≤ p)
    (hn : ∀ nn, n = Option.some nn → nn ≤ 1023) :
    ∃ b : Bool, roundDouble ((roundDouble x p n rm).1) p n rm =
      ((roundDouble x p n rm).1,
       { Flags.clear with tiny_before := b, tiny_after := b }) := by
  have hEM : FP.EMIN = (-1022 : ℤ) := rfl
  by_cases hfin : finiteB x = true
  · have hcore := roundDoubleCore_finite x p n rm hfin
    obtain ⟨h0iff, hrange, hebounds, hgrid⟩ := decodeNorm_spec x hfin
    have hrd : roundDouble x p n rm =
        (encode 53 (roundDoubleCore x p n rm).s (roundDoubleCore x p n rm).e
          (roundDoubleCore x p n rm).c, (roundDoubleCore x p n rm).fl) := by
      unfold roundDouble
      rw [if_pos hfin]
      rfl
    rcases hrange with hzero | ⟨hlo, hhi⟩
    · have hz : round_finalize_core 53 (decodeNorm x).1 (decodeNorm x).2.1
          (decodeNorm x).2.2 p n rm =
          ⟨(decodeNorm x).1, (decodeNorm x).2.1, 0,
           { Flags.clear with tiny_before := true, tiny_after := true }⟩ := by
        unfold round_finalize_core
        rw [if_pos hzero]
      rw [hrd]
      dsimp only
      rw [hcore, hz]
      dsimp only
      rw [encode_zero]
      exact ⟨true, roundDouble_zero_pattern _ p n rm⟩
    · have heb := hebounds (by omega)
      obtain ⟨hOs, hOinv⟩ := kernel_output_invariant (decodeNorm x).1
        (decodeNorm x).2.1 (decodeNorm x).2.2 p n rm hlo hhi heb.2 heb.1
        hgrid hp hn
      rw [hrd]
      dsimp only
      rw [hcore]
      set K := round_finalize_core 53 (decodeNorm x).1 (decodeNorm x).2.1
        (decodeNorm x).2.2 p n rm with hKdef
      rcases hOinv with hKc0 | ⟨hKc52, hKe⟩ |
        ⟨hc1', hc2', he1', he2', hgrid', hsecAll⟩
      · rw [hKc0, encode_zero]
        exact ⟨true, roundDouble_zero_pattern _ p n rm⟩
      · rcases hKe with hdeep | htop
        · rw [hKc52, encode_small K.s K.e (2 ^ 52) (by omega)
            (lt_of_lt_of_le (by norm_num : (2 : ℕ) ^ 52 < 2 ^ 53)
              (Nat.pow_le_pow_right (by norm_num) (by omega)))]
          exact ⟨true, roundDouble_zero_pattern _ p n rm⟩
        · rw [hKc52, htop]
          obtain ⟨henc, hfin2⟩ := encode_top K.s
          rw [henc]
          refine ⟨false, ?_⟩
          unfold roundDouble
          rw [if_neg (by rw [hfin2]; simp)]
          rfl
      · obtain ⟨hfin2, hdec2, hmag2⟩ :=
          decodeNorm_encode K.s K.e K.c hc1' hc2' he1' he2' hgrid'
        obtain ⟨b2, hsec⟩ := hsecAll K.s
        refine ⟨b2, ?_⟩
        unfold roundDouble
        rw [if_pos hfin2]
        dsimp only
        have hcore2 := roundDoubleCore_finite (encode 53 K.s K.e K.c) p n rm hfin2
        rw [hcore2, hdec2]
        dsimp only
        rw [hsec]
        rfl
  · refine ⟨false, ?_⟩
    have h1 : roundDouble x p n rm = (x, Flags.clear) := by
      unfold roundDouble
      rw [if_neg hfin]
    rw [h1]
    dsimp only
    rw [h1]
    rfl
theorem decodeNorm_fst (x : ℕ) : (decodeNorm x).1 = sgn x := by
  unfold decodeNorm unpack_float
  dsimp only
  split <;> rfl

theorem finiteB_signMag (s : Bool) (w : ℕ) (hw : w < 2 ^ 63) :
    finiteB ((if s then 2 ^ 63 else 0) + w) = finiteB w := by
  unfold finiteB
  rw [ebitsOf_signMag s w hw]

theorem magBits_signMag (s : Bool) (w : ℕ) (hw : w < 2 ^ 63) :
    magBits ((if s then 2 ^ 63 else 0) + w) = w := by
  unfold magBits
  cases s <;> simp only [Bool.false_eq_true, if_true, if_false] <;> omega

theorem decodeNorm_signMag (s : Bool) (w : ℕ) (hw : w < 2 ^ 63) :
    decodeNorm ((if s then 2 ^ 63 else 0) + w) =
      (s, (decodeNorm w).2.1, (decodeNorm w).2.2) := by
  unfold decodeNorm unpack_float
  rw [ebitsOf_signMag s w hw, mbitsOf_signMag s w, sgn_signMag s w hw]
  dsimp only
  split <;> rfl

theorem finiteB_infWithSign (x : ℕ) : finiteB (infWithSign x) = false := by
  unfold finiteB infWithSign
  rw [ebitsOf_signMag _ _ (by norm_num)]
  unfold ebitsOf
  norm_num

theorem ctx_round_second (ctx : Context) (x y : ℕ) (b : Bool)
    (hy : (ctxRound ctx x).1 = y)
    (hrd : roundDouble y ctx.p ctx.n ctx.rm =
      (y, { Flags.clear with tiny_before := b, tiny_after := b }))
    (ho : round_overflow ctx y = (y, Flags.clear)) :
    (ctxRound ctx (ctxRound ctx x).1).1 = (ctxRound ctx x).1 ∧
    (ctxRound ctx (ctxRound ctx x).1).2.inexact = false ∧
    (ctxRound ctx (ctxRound ctx x).1).2.underflow_before = false ∧
    (ctxRound ctx (ctxRound ctx x).1).2.underflow_after = false ∧
    (ctxRound ctx (ctxRound ctx x).1).2.overflow = false ∧
    (ctxRound ctx (ctxRound ctx x).1).2.carry = false := by
  have hcr : ctxRound ctx y =
      (y, Flags.union { Flags.clear with tiny_before := b, tiny_after := b }
        Flags.clear) := by
    unfold ctxRound
    rw [hrd]
    dsimp only
    rw [ho]
  rw [hy, hcr]
  exact ⟨rfl, rfl, rfl, rfl, rfl, rfl⟩
set_option maxHeartbeats 1000000 in
/-- C10 (amended: additionally requiring that a present subnormal position
`n` not exceed `EMAX = 1023`, and that a present `maxval` be a 64-bit
pattern): rounding through a context is idempotent — for every double `x`
and every context with `1 ≤ p` whose `maxval`, when present, is
non-negative and round-idempotent, a second `Context::round` returns the
same bit pattern and raises no `inexact`, `underflow` (before or after),
`overflow`, or `carry` flag. -/
theorem ctx_round_idempotent (ctx : Context) (x : ℕ)
    (hp : 1 ≤ ctx.p)
    (hn : ∀ nn, ctx.n = Option.some nn → nn ≤ 1023)
    (hmv : ∀ mv, ctx.maxval = Option.some mv →
      mv < 2 ^ 64 ∧ sgn mv = false ∧
      (roundDouble mv ctx.p ctx.n ctx.rm).1 = mv) :
    (ctxRound ctx (ctxRound ctx x).1).1 = (ctxRound ctx x).1 ∧
    (ctxRound ctx (ctxRound ctx x).1).2.inexact = false ∧
    (ctxRound ctx (ctxRound ctx x).1).2.underflow_before = false ∧
    (ctxRound ctx (ctxRound ctx x).1).2.underflow_after = false ∧
    (ctxRound ctx (ctxRound ctx x).1).2.overflow = false ∧
    (ctxRound ctx (ctxRound ctx x).1).2.carry = false := by
  have hEM : FP.EMIN = (-1022 : ℤ) := rfl
  set w := (roundDouble x ctx.p ctx.n ctx.rm).1 with hwdef
  have hctx1 : (ctxRound ctx x).1 = (round_overflow ctx w).1 := rfl
  rcases hmo : ctx.maxval with _ | mv
  · have ho1 : round_overflow ctx w = (w, Flags.clear) := by
      simp only [round_overflow, hmo]
    obtain ⟨b, hidem⟩ := roundDouble_idem x ctx.p ctx.n ctx.rm hp hn
    exact ctx_round_second ctx x w b (by rw [hctx1, ho1]) hidem ho1
  · obtain ⟨hmv64, hmvsgn, hmvidem⟩ := hmv mv hmo
    have hmv63 : mv < 2 ^ 63 := by
      unfold sgn at hmvsgn
      simp only [decide_eq_false_iff_not] at hmvsgn
      omega
    by_cases hwf : finiteB w = true
    · by_cases hov : val1074 mv < val1074 (magBits w)
      · have hfneg : ¬ finiteB w = false := by
          rw [hwf]
          simp
        by_cases hinf : overflow_to_infinity ctx.rm (sgn w) ctx.maxval_odd = true
        · have ho1 : round_overflow ctx w = (infWithSign w,
              { Flags.clear with overflow := true, inexact := true }) := by
            simp only [round_overflow, hmo]
            rw [if_neg hfneg, if_pos hov]
            rw [if_pos hinf]
          have hyinf : finiteB (infWithSign w) = false := finiteB_infWithSign w
          refine ctx_round_second ctx x (infWithSign w) false
            (by rw [hctx1, ho1]) ?_ ?_
          · unfold roundDouble
            rw [if_neg (by rw [hyinf]; simp)]
            rfl
          · simp only [round_overflow, hmo]
            rw [if_pos hyinf]
        · have ho1 : round_overflow ctx w = (copysignTo mv w,
              { Flags.clear with overflow := true, inexact := true }) := by
            simp only [round_overflow, hmo]
            rw [if_neg hfneg, if_pos hov]
            rw [if_neg hinf]
          have hyeq : copysignTo mv w = (if sgn w then 2 ^ 63 else 0) + mv := by
            unfold copysignTo magBits
            rw [Nat.mod_eq_of_lt hmv63]
          have hmagy : magBits (copysignTo mv w) = mv := by
            rw [hyeq]
            exact magBits_signMag _ _ hmv63
          by_cases hmvfin : finiteB mv = true
          · have hyfin : finiteB (copysignTo mv w) = true := by
              rw [hyeq, finiteB_signMag _ _ hmv63]
              exact hmvfin
            have hyfneg : ¬ finiteB (copysignTo mv w) = false := by
              rw [hyfin]
              simp
            have ho2 : round_overflow ctx (copysignTo mv w) =
                (copysignTo mv w, Flags.clear) := by
              simp only [round_overflow, hmo]
              rw [if_neg hyfneg, if_neg (by rw [hmagy]; exact lt_irrefl _)]
            obtain ⟨h0iffM, hrangeM, hebM, hgridM⟩ := decodeNorm_spec mv hmvfin
            have hcoreM := roundDoubleCore_finite mv ctx.p ctx.n ctx.rm hmvfin
            have hrdM : roundDouble mv ctx.p ctx.n ctx.rm =
                (encode 53 (roundDoubleCore mv ctx.p ctx.n ctx.rm).s
                  (roundDoubleCore mv ctx.p ctx.n ctx.rm).e
                  (roundDoubleCore mv ctx.p ctx.n ctx.rm).c,
                 (roundDoubleCore mv ctx.p ctx.n ctx.rm).fl) := by
              unfold roundDouble
              rw [if_pos hmvfin]
              rfl
            rcases hrangeM with hz | ⟨hlo, hhi⟩
            · have hmv0 : mv = 0 := by
                have h := h0iffM.mp hz
                unfold magBits at h
                rw [Nat.mod_eq_of_lt hmv63] at h
                exact h
              have hy0 : copysignTo mv w = pattern (sgn w) 0 0 := by
                rw [hyeq, hmv0]
                unfold pattern
                cases sgn w <;> simp
              refine ctx_round_second ctx x (copysignTo mv w) true
                (by rw [hctx1, ho1]) ?_ ho2
              rw [hy0]
              exact roundDouble_zero_pattern _ _ _ _
            · have hebM2 := hebM (by omega)
              obtain ⟨hOsM, hOinvM⟩ := kernel_output_invariant (decodeNorm mv).1
                (decodeNorm mv).2.1 (decodeNorm mv).2.2 ctx.p ctx.n ctx.rm hlo
                hhi hebM2.2 hebM2.1 hgridM hp hn
              rw [hcoreM] at hrdM
              set KM := round_finalize_core 53 (decodeNorm mv).1
                (decodeNorm mv).2.1 (decodeNorm mv).2.2 ctx.p ctx.n ctx.rm
                with hKMdef
              have hencM : encode 53 KM.s KM.e KM.c = mv := by
                rw [hrdM] at hmvidem
                exact hmvidem
              have hmagne : magBits mv ≠ 0 := fun h => by
                have h2 := h0iffM.mpr h
                omega
              rcases hOinvM with hKc0 | ⟨hKc52, hKe⟩ |
                ⟨hc1', hc2', he1', he2', hgrid', hsecAll⟩
              · exfalso
                rw [hKc0, encode_zero] at hencM
                apply hmagne
                rw [← hencM]
                unfold pattern magBits
                cases KM.s <;> simp
              · rcases hKe with hdeep | htop
                · exfalso
                  rw [hKc52, encode_small KM.s KM.e (2 ^ 52) (by omega)
                    (lt_of_lt_of_le (by norm_num : (2 : ℕ) ^ 52 < 2 ^ 53)
                      (Nat.pow_le_pow_right (by norm_num) (by omega)))] at hencM
                  apply hmagne
                  rw [← hencM]
                  unfold pattern magBits
                  cases KM.s <;> simp
                · exfalso
                  obtain ⟨hencT, hfinT⟩ := encode_top KM.s
                  rw [hKc52, htop, hencT] at hencM
                  rw [← hencM, hfinT] at hmvfin
                  simp at hmvfin
              · obtain ⟨hfin2M, hdec2M, _⟩ :=
                  decodeNorm_encode KM.s KM.e KM.c hc1' hc2' he1' he2' hgrid'
                rw [hencM] at hdec2M
                have hdecY : decodeNorm (copysignTo mv w) =
                    (sgn w, KM.e, KM.c) := by
                  rw [hyeq, decodeNorm_signMag (sgn w) mv hmv63, hdec2M]
                obtain ⟨b2, hsec2⟩ := hsecAll (sgn w)
                refine ctx_round_second ctx x (copysignTo mv w) b2
                  (by rw [hctx1, ho1]) ?_ ho2
                unfold roundDouble
                rw [if_pos hyfin]
                dsimp only
                rw [roundDoubleCore_finite (copysignTo mv w) ctx.p ctx.n
                  ctx.rm hyfin, hdecY]
                dsimp only
                rw [hsec2]
                dsimp only
                have hKMs : KM.s = false := by
                  rw [hOsM, decodeNorm_fst]
                  exact hmvsgn
                have hy2 : encode 53 (sgn w) KM.e KM.c = copysignTo mv w := by
                  rw [encode_sign KM.e KM.c (sgn w), hyeq]
                  exact congrArg (fun t => (if sgn w then 2 ^ 63 else 0) + t)
                    (by rw [← hKMs]; exact hencM)
                have hy3 : encode FP.P (sgn w) KM.e KM.c = copysignTo mv w := hy2
                rw [hy3]
          · have hyfinF : finiteB (copysignTo mv w) = false := by
              rw [hyeq, finiteB_signMag _ _ hmv63]
              revert hmvfin
              cases finiteB mv <;> simp
            refine ctx_round_second ctx x (copysignTo mv w) false
              (by rw [hctx1, ho1]) ?_ ?_
            · unfold roundDouble
              rw [if_neg (by rw [hyfinF]; simp)]
              rfl
            · simp only [round_overflow, hmo]
              rw [if_pos hyfinF]
      · have hfneg : ¬ finiteB w = false := by
          rw [hwf]
          simp
        have ho1 : round_overflow ctx w = (w, Flags.clear) := by
          simp only [round_overflow, hmo]
          rw [if_neg hfneg, if_neg hov]
        obtain ⟨b, hidem⟩ := roundDouble_idem x ctx.p ctx.n ctx.rm hp hn
        exact ctx_round_second ctx x w b (by rw [hctx1, ho1]) hidem ho1
    · have hwff : finiteB w = false := by
        revert hwf
        cases finiteB w <;> simp
      have ho1 : round_overflow ctx w = (w, Flags.clear) := by
        simp only [round_overflow, hmo]
        rw [if_pos hwff]
      refine ctx_round_second ctx x w false (by rw [hctx1, ho1]) ?_ ho1
      unfold roundDouble
      rw [if_neg hwf]
      rfl
set_option maxRecDepth 100000 in
/-- C10 counterexample to the claim without the bound on `n`: with `p = 1`,
`n = 5000` (beyond `EMAX = 1023`), no `maxval` and round-away-from-zero,
rounding `1.5` yields `2 ^ 5001`; its encoded bit pattern decodes to a much
smaller value which re-rounds inexactly, so the second application raises
`inexact` again. -/
theorem ctx_round_idempotent_counterexample :
    (ctxRound ⟨1, Option.some 5000, Option.none, RM.RAZ, false⟩
      (ctxRound ⟨1, Option.some 5000, Option.none, RM.RAZ, false⟩
        (1023 * 2 ^ 52 + 2 ^ 51)).1).2.inexact = true := by
  decide

set_option maxRecDepth 100000 in
/-- Witness for C10 at `x = 4.5`, `p = 2`, `n = -10`, `maxval = 3.0`, RNE. -/
theorem ctx_round_idempotent_witness :
    (ctxRound ⟨2, Option.some (-10), Option.some (1024 * 2 ^ 52 + 2 ^ 51),
        RM.RNE, true⟩
      (ctxRound ⟨2, Option.some (-10), Option.some (1024 * 2 ^ 52 + 2 ^ 51),
          RM.RNE, true⟩ (1025 * 2 ^ 52)).1).1 =
      (ctxRound ⟨2, Option.some (-10), Option.some (1024 * 2 ^ 52 + 2 ^ 51),
          RM.RNE, true⟩ (1025 * 2 ^ 52)).1 ∧
    (ctxRound ⟨2, Option.some (-10), Option.some (1024 * 2 ^ 52 + 2 ^ 51),
        RM.RNE, true⟩
      (ctxRound ⟨2, Option.some (-10), Option.some (1024 * 2 ^ 52 + 2 ^ 51),
          RM.RNE, true⟩ (1025 * 2 ^ 52)).1).2.inexact = false ∧
    (ctxRound ⟨2, Option.some (-10), Option.some (1024 * 2 ^ 52 + 2 ^ 51),
        RM.RNE, true⟩
      (ctxRound ⟨2, Option.some (-10), Option.some (1024 * 2 ^ 52 + 2 ^ 51),
          RM.RNE, true⟩ (1025 * 2 ^ 52)).1).2.underflow_before = false ∧
    (ctxRound ⟨2, Option.some (-10), Option.some (1024 * 2 ^ 52 + 2 ^ 51),
        RM.RNE, true⟩
      (ctxRound ⟨2, Option.some (-10), Option.some (1024 * 2 ^ 52 + 2 ^ 51),
          RM.RNE, true⟩ (1025 * 2 ^ 52)).1).2.underflow_after = false ∧
    (ctxRound ⟨2, Option.some (-10), Option.some (1024 * 2 ^ 52 + 2 ^ 51),
        RM.RNE, true⟩
      (ctxRound ⟨2, Option.some (-10), Option.some (1024 * 2 ^ 52 + 2 ^ 51),
          RM.RNE, true⟩ (1025 * 2 ^ 52)).1).2.overflow = false ∧
    (ctxRound ⟨2, Option.some (-10), Option.some (1024 * 2 ^ 52 + 2 ^ 51),
        RM.RNE, true⟩
      (ctxRound ⟨2, Option.some (-10), Option.some (1024 * 2 ^ 52 + 2 ^ 51),
          RM.RNE, true⟩ (1025 * 2 ^ 52)).1).2.carry = false :=
  ctx_round_idempotent
    ⟨2, Option.some (-10), Option.some (1024 * 2 ^ 52 + 2 ^ 51), RM.RNE, true⟩
    (1025 * 2 ^ 52)
    (by decide)
    (by
      intro nn h
      injection h with h2
      omega)
    (by
      intro mv h
      injection h with h2
      subst h2
      exact ⟨by decide, by decide, by decide⟩)
end Mpfx














